import Mathlib

/-!
Verification of the streaming response pipeline of the `clavix-xtower` chat
playground: the thought-chain splitter (`src/lib/thought-chain.js`), the
OpenAI / Anthropic SSE delta decoders, the SSE frame reader (`src/lib/sse.ts`)
and token-usage merging (`src/routes/+page.svelte`).

Shallow embedding conventions:
* JavaScript strings are modelled as `List Char`.  `String.prototype.toLowerCase`
  is modelled at the code-unit level by `jsToLower` (`jsLowerChar` covers the
  code points where lowercasing is not character-wise, in particular U+0130,
  which expands to two code units, and U+212A, which folds to ASCII `k`); the
  character-wise `lowerStr` agrees with it on every string free of those two
  code points (`jsToLower_eq_lower`) and carries the bulk of the proofs.
* `JSON.parse` outcomes are modelled by the inductive `SseData`
  (the literal `[DONE]`, the empty string, an unparseable string, or a parsed
  `Json` value); JSON numbers are modelled as integers (the claims only involve
  token counts and block indices).
* Stateful code (the splitter closure, the Anthropic block-type map) is
  modelled by explicit state passing.
-/

abbrev Str := List Char

def strOf (s : String) : Str := s.data

/-- Character-wise lowercasing.  This agrees with `String.prototype.toLowerCase`
only on strings free of U+0130 and U+212A (`jsLowerChar` below is the faithful
per-character model and `jsToLower_eq_lower` the agreement); splitter theorems
stated over `lowerStr` therefore carry a `cleanStr` restriction. -/
def lowerStr (s : Str) : Str := s.map Char.toLower

/-- `String.prototype.toLowerCase`, per input character, at the UTF-16
code-unit level, covering the code points this development evaluates it on:
`LATIN CAPITAL LETTER I WITH DOT ABOVE` (U+0130) lowercases to the two code
units `i` + `COMBINING DOT ABOVE` (U+0307), `KELVIN SIGN` (U+212A) lowercases
to ASCII `k`, and `A`–`Z` lowercase to `a`–`z`; every other character is kept
as `Char.toLower` leaves it.  Non-ASCII characters whose JS lowercase differs
from this (for example accented letters) neither match the ASCII tag
characters nor change the string length, so they cannot affect the splitter's
tag matching or index arithmetic. -/
def jsLowerChar (c : Char) : Str :=
  if c = Char.ofNat 0x0130 then ['i', Char.ofNat 0x0307]
  else if c = Char.ofNat 0x212A then ['k']
  else [Char.toLower c]

/-- `String.prototype.toLowerCase` on a whole string. -/
def jsToLower (s : Str) : Str := (s.map jsLowerChar).flatten

/-- Whether JS lowercasing of `c` is exactly the character-wise `Char.toLower`
(false exactly for U+0130 and U+212A). -/
def cleanChar (c : Char) : Bool := jsLowerChar c == [Char.toLower c]

/-- Whether every character of `s` lowercases character-wise (all ASCII
strings qualify). -/
def cleanStr (s : Str) : Bool := s.all cleanChar

/-- Boolean test that `p` is a leading segment of `s` (JS `s.startsWith(p)`). -/
def strLeads (p s : Str) : Bool :=
  match p, s with
  | [], _ => true
  | _ :: _, [] => false
  | a :: p', b :: s' => a == b && strLeads p' s'

/-- JS `text.indexOf(pat)`: the first index where `pat` occurs, if any. -/
def strIndexOf (text pat : Str) : Option Nat :=
  if strLeads pat text then some 0
  else
    match text with
    | [] => none
    | _ :: rest => (strIndexOf rest pat).map (· + 1)

/-- JS `text.lastIndexOf(pat)`: the last index where `pat` occurs, if any. -/
def strLastIndexOf (text pat : Str) : Option Nat :=
  match text with
  | [] => if strLeads pat [] then some 0 else none
  | c :: rest =>
    match strLastIndexOf rest pat with
    | some i => some (i + 1)
    | none => if strLeads pat (c :: rest) then some 0 else none

/-- The last `n` characters of `s` (JS `s.slice(-n)` for `0 < n ≤ s.length`). -/
def lastN (n : Nat) (s : Str) : Str := s.drop (s.length - n)

namespace ThoughtChain

/-- `DEFAULT_OPEN_TAGS = ['<think>', '<analysis>']`. -/
def DEFAULT_OPEN_TAGS : List Str := [strOf "<think>", strOf "<analysis>"]

/-- `DEFAULT_CLOSE_TAGS = ['</think>', '</analysis>']`. -/
def DEFAULT_CLOSE_TAGS : List Str := [strOf "</think>", strOf "</analysis>"]

/-- `TagKind`: `'open' | 'close'`. -/
inductive TagKind where
  | openTag
  | closeTag
deriving DecidableEq, Repr

/-- `TagHit`: `{ index, tag, kind }`. -/
structure TagHit where
  index : Nat
  tag : Str
  kind : TagKind
deriving DecidableEq, Repr

/-- The body of `findNextTag`'s `for` loops: fold one tag list through `best`,
keeping the earliest-index hit (`if (!best || idx < best.index) best = ...`). -/
def scanTags (lower : Str) (kind : TagKind) (tags : List Str) (best : Option TagHit) :
    Option TagHit :=
  match tags with
  | [] => best
  | tag :: rest =>
    let best' :=
      match strIndexOf lower tag with
      | none => best
      | some idx =>
        match best with
        | none => some ⟨idx, tag, kind⟩
        | some b => if idx < b.index then some ⟨idx, tag, kind⟩ else some b
    scanTags lower kind rest best'

/-- `findNextTag(text, openTags, closeTags)`: earliest case-insensitive tag
occurrence, open tags scanned first. -/
def findNextTag (text : Str) (openTags closeTags : List Str) : Option TagHit :=
  let lower := lowerStr text
  scanTags lower .closeTag closeTags (scanTags lower .openTag openTags none)

/-- Splitter configuration: the (already lowercased) open/close tag lists.
`createThoughtChainSplitter` lowercases the configured tags; the defaults are
already lowercase. -/
structure SplitterCfg where
  openTags : List Str
  closeTags : List Str
deriving Repr

/-- The default configuration. -/
def dCfg : SplitterCfg := ⟨DEFAULT_OPEN_TAGS, DEFAULT_CLOSE_TAGS⟩

/-- `allTags = [...openTags, ...closeTags]`. -/
def SplitterCfg.allTags (cfg : SplitterCfg) : List Str := cfg.openTags ++ cfg.closeTags

/-- `maxTagLen = Math.max(1, ...allTags.map(t => t.length))`. -/
def SplitterCfg.maxTagLen (cfg : SplitterCfg) : Nat :=
  (cfg.allTags.map List.length).foldl Nat.max 1

/-- Splitter closure state: `buffer` and `inThinking`. -/
structure SplitterState where
  buffer : Str
  inThinking : Bool
deriving DecidableEq, Repr

/-- The fresh splitter state (`buffer = ''`, `inThinking = false`). -/
def initState : SplitterState := ⟨[], false⟩

/-- A `{ contentDelta, thinkingDelta }` output record. -/
structure Delta where
  contentDelta : Str
  thinkingDelta : Str
deriving DecidableEq, Repr

/-- The empty output record. -/
def emptyDelta : Delta := ⟨[], []⟩

/-- Componentwise concatenation of output records. -/
def dapp (x y : Delta) : Delta := ⟨x.contentDelta ++ y.contentDelta, x.thinkingDelta ++ y.thinkingDelta⟩

/-- `append(out, text)`: route `text` into the bucket selected by `inThinking`,
skipping empty text. -/
def appendOut (inThinking : Bool) (out : Delta) (text : Str) : Delta :=
  if text = [] then out
  else if inThinking then { out with thinkingDelta := out.thinkingDelta ++ text }
  else { out with contentDelta := out.contentDelta ++ text }

/-- Whether `suffix` is a (case-insensitively pre-lowered) prefix of one of the
configured tags. -/
def isTagPre (tags : List Str) (suffix : Str) : Bool :=
  tags.any (fun tag => strLeads suffix tag)

/-- The countdown loop of `calcKeepTailLen`: try suffix lengths from `n` down
to `1`, returning the first (longest) length whose suffix could start a tag. -/
def keepLoop (tags : List Str) (lower : Str) : Nat → Nat
  | 0 => 0
  | n + 1 => if isTagPre tags (lastN (n + 1) lower) then n + 1 else keepLoop tags lower n

/-- `calcKeepTailLen()`: longest trailing fragment of `buffer` that is a prefix
of some tag (at most `maxTagLen - 1` characters). -/
def calcKeepTailLen (cfg : SplitterCfg) (buffer : Str) : Nat :=
  keepLoop cfg.allTags (lowerStr buffer) (Nat.min (cfg.maxTagLen - 1) buffer.length)

/-- The `while (true)` scan-and-consume loop of `push`, structured on a fuel
argument: find the earliest tag, emit the text before it into the current
bucket, consume the tag, flip the mode, repeat.  Each iteration with a
configured (nonempty) tag strictly shrinks the buffer, so `buffer.length + 1`
fuel is always enough; `tagLoop` below instantiates it that way. -/
def tagLoopF (cfg : SplitterCfg) : Nat → Delta → Str → Bool → Delta × Str × Bool
  | 0, out, buffer, inThinking => (out, buffer, inThinking)
  | fuel + 1, out, buffer, inThinking =>
    match findNextTag buffer cfg.openTags cfg.closeTags with
    | none => (out, buffer, inThinking)
    | some hit =>
      tagLoopF cfg fuel (appendOut inThinking out (buffer.take hit.index))
        (buffer.drop (hit.index + hit.tag.length)) (hit.kind == TagKind.openTag)

/-- The `while (true)` loop of `push` with the canonical fuel. -/
def tagLoop (cfg : SplitterCfg) (out : Delta) (buffer : Str) (inThinking : Bool) :
    Delta × Str × Bool :=
  tagLoopF cfg (buffer.length + 1) out buffer inThinking

/-- `push(chunk)` for a string chunk: append to buffer, resolve complete tags,
then emit all but an ambiguous tag-prefix tail. -/
def pushStr (cfg : SplitterCfg) (st : SplitterState) (chunk : Str) : Delta × SplitterState :=
  if chunk = [] then (emptyDelta, st)
  else
    let buffer0 := st.buffer ++ chunk
    let r := tagLoop cfg emptyDelta buffer0 st.inThinking
    let out := r.1
    let buffer := r.2.1
    let inThinking := r.2.2
    let keep := calcKeepTailLen cfg buffer
    if 0 < keep then
      (appendOut inThinking out (buffer.take (buffer.length - keep)),
       ⟨buffer.drop (buffer.length - keep), inThinking⟩)
    else if buffer ≠ [] then
      (appendOut inThinking out buffer, ⟨[], inThinking⟩)
    else
      (out, ⟨buffer, inThinking⟩)

/-- `push(chunk)` including the `typeof chunk !== 'string'` guard: `none`
models any non-string argument, which returns empty deltas without touching
the closure state. -/
def push (cfg : SplitterCfg) (st : SplitterState) (chunk : Option Str) : Delta × SplitterState :=
  match chunk with
  | none => (emptyDelta, st)
  | some c => pushStr cfg st c

/-- `flush()`: emit the remaining buffer into the current bucket and clear
the buffer (`inThinking` is left unchanged). -/
def flush (st : SplitterState) : Delta × SplitterState :=
  (appendOut st.inThinking emptyDelta st.buffer, ⟨[], st.inThinking⟩)

/-- `reset()`: clear the buffer and leave thinking mode. -/
def reset (_st : SplitterState) : SplitterState := ⟨[], false⟩

/-- Run a sequence of `push` calls, collecting each call's output record. -/
def runPushes (cfg : SplitterCfg) (st : SplitterState) : List Str → List Delta × SplitterState
  | [] => ([], st)
  | c :: cs =>
    let r := pushStr cfg st c
    let rest := runPushes cfg r.2 cs
    (r.1 :: rest.1, rest.2)

/-- The tail of `push` after the tag loop, as a function of the loop result:
emit everything but the ambiguous tag-prefix tail, keep that tail as the new
buffer (verification helper; `pushStr` on a nonempty chunk equals
`finishPush` of its tag-loop result). -/
def finishPush (P : Delta × Str × Bool) : Delta × SplitterState :=
  (dapp P.1 (appendOut P.2.2 emptyDelta
    (P.2.1.take (P.2.1.length - calcKeepTailLen dCfg P.2.1))),
   ⟨P.2.1.drop (P.2.1.length - calcKeepTailLen dCfg P.2.1), P.2.2⟩)

/-- `findNextTag` with the faithful JS lowercasing (`jsToLower`): identical to
`findNextTag` except for the lowercasing of the scanned text.  The source
computes tag indices on `text.toLowerCase()` but later slices the un-lowered
buffer with them, which these `Js`-suffixed definitions reproduce exactly. -/
def findNextTagJs (text : Str) (openTags closeTags : List Str) : Option TagHit :=
  let lower := jsToLower text
  scanTags lower .closeTag closeTags (scanTags lower .openTag openTags none)

/-- `calcKeepTailLen` with the faithful JS lowercasing: as in the source, the
bound `max` is computed from the raw buffer length while the candidate
suffixes are sliced from the lowered string. -/
def calcKeepTailLenJs (cfg : SplitterCfg) (buffer : Str) : Nat :=
  keepLoop cfg.allTags (jsToLower buffer) (Nat.min (cfg.maxTagLen - 1) buffer.length)

/-- The `while (true)` loop of `push` with the faithful JS lowercasing: the
hit index and tag length stem from the lowered string, the `take`/`drop`
slices apply to the raw buffer, exactly as in the source. -/
def tagLoopFJs (cfg : SplitterCfg) : Nat → Delta → Str → Bool → Delta × Str × Bool
  | 0, out, buffer, inThinking => (out, buffer, inThinking)
  | fuel + 1, out, buffer, inThinking =>
    match findNextTagJs buffer cfg.openTags cfg.closeTags with
    | none => (out, buffer, inThinking)
    | some hit =>
      tagLoopFJs cfg fuel (appendOut inThinking out (buffer.take hit.index))
        (buffer.drop (hit.index + hit.tag.length)) (hit.kind == TagKind.openTag)

/-- `tagLoopFJs` with the canonical fuel (every iteration with a configured
nonempty tag strictly shrinks the raw buffer, or empties it outright when the
lowered index overshoots, so `buffer.length + 1` fuel is always enough). -/
def tagLoopJs (cfg : SplitterCfg) (out : Delta) (buffer : Str) (inThinking : Bool) :
    Delta × Str × Bool :=
  tagLoopFJs cfg (buffer.length + 1) out buffer inThinking

/-- `push(chunk)` for a string chunk, with the faithful JS lowercasing. -/
def pushStrJs (cfg : SplitterCfg) (st : SplitterState) (chunk : Str) : Delta × SplitterState :=
  if chunk = [] then (emptyDelta, st)
  else
    let buffer0 := st.buffer ++ chunk
    let r := tagLoopJs cfg emptyDelta buffer0 st.inThinking
    let out := r.1
    let buffer := r.2.1
    let inThinking := r.2.2
    let keep := calcKeepTailLenJs cfg buffer
    if 0 < keep then
      (appendOut inThinking out (buffer.take (buffer.length - keep)),
       ⟨buffer.drop (buffer.length - keep), inThinking⟩)
    else if buffer ≠ [] then
      (appendOut inThinking out buffer, ⟨[], inThinking⟩)
    else
      (out, ⟨buffer, inThinking⟩)

/-- A sequence of `push` calls with the faithful JS lowercasing. -/
def runPushesJs (cfg : SplitterCfg) (st : SplitterState) : List Str → List Delta × SplitterState
  | [] => ([], st)
  | c :: cs =>
    let r := pushStrJs cfg st c
    let rest := runPushesJs cfg r.2 cs
    (r.1 :: rest.1, rest.2)

/-- The chunk sequence of the repository's cross-chunk splitter test. -/
def demoChunksA : List Str := [strOf "Hello <thi", strOf "nk>reasoning", strOf "</think> world"]

/-- The chunk sequence of the repository's partial-tag-tail splitter test. -/
def demoChunksB : List Str := [strOf "a<", strOf "b"]

end ThoughtChain

namespace Sse

/-- An `SseEvent` record: `{ event: string|null, data: string, id: string|null }`. -/
structure SseEvent where
  event : Option Str
  id : Option Str
  data : Str
deriving DecidableEq, Repr

/-- `s.replaceAll('\r', '')`. -/
def removeCR (s : Str) : Str := s.filter (fun c => c ≠ '\r')

/-- JS `s.split('\n\n')` (leftmost, non-overlapping separators). -/
def splitNN : Str → List Str
  | [] => [[]]
  | '\n' :: '\n' :: rest => [] :: splitNN rest
  | c :: rest =>
    match splitNN rest with
    | [] => [[c]]
    | t :: ts => (c :: t) :: ts

/-- JS `s.split('\n')`. -/
def splitNL : Str → List Str
  | [] => [[]]
  | c :: rest =>
    if c = '\n' then [] :: splitNL rest
    else
      match splitNL rest with
      | [] => [[c]]
      | t :: ts => (c :: t) :: ts

/-- JS `s.trimStart()` (all leading whitespace removed). -/
def trimStart (s : Str) : Str := s.dropWhile Char.isWhitespace

/-- JS `s.trimEnd()`. -/
def trimEnd (s : Str) : Str := (s.reverse.dropWhile Char.isWhitespace).reverse

/-- JS `s.trim()`. -/
def trim (s : Str) : Str := trimEnd (trimStart s)

/-- The field-name extraction of `parseSseChunk`:
`(idx === -1 ? line : line.slice(0, idx)).trim()` with `idx = line.indexOf(':')`. -/
def lineField (line : Str) : Str :=
  match strIndexOf line (strOf ":") with
  | none => trim line
  | some i => trim (line.take i)

/-- The value extraction of `parseSseChunk`:
`idx === -1 ? '' : line.slice(idx + 1).trimStart()`. -/
def lineValue (line : Str) : Str :=
  match strIndexOf line (strOf ":") with
  | none => []
  | some i => trimStart (line.drop (i + 1))

/-- The mutable per-block accumulator of `parseSseChunk`'s line loop. -/
structure LineAcc where
  event : Option Str
  id : Option Str
  dataLines : List Str
deriving DecidableEq, Repr

/-- One iteration of `parseSseChunk`'s `for (const line of lines)` loop. -/
def procLine (acc : LineAcc) (line : Str) : LineAcc :=
  match line with
  | [] => acc
  | c :: _ =>
    if c = ':' then acc
    else
      let field := lineField line
      let value := lineValue line
      if field = strOf "event" then { acc with event := if value = [] then none else some value }
      else if field = strOf "id" then { acc with id := if value = [] then none else some value }
      else if field = strOf "data" then { acc with dataLines := acc.dataLines ++ [value] }
      else acc

/-- `dataLines.join('\n')`. -/
def joinNL : List Str → Str
  | [] => []
  | [x] => x
  | x :: xs => x ++ '\n' :: joinNL xs

/-- One block of `parseSseChunk`: parse the lines, keep the record only if at
least one `data` line is present. -/
def parseBlock (block : Str) : Option SseEvent :=
  let acc := (splitNL block).foldl procLine ⟨none, none, []⟩
  if acc.dataLines = [] then none
  else some ⟨acc.event, acc.id, joinNL acc.dataLines⟩

/-- `parseSseChunk(raw)`: strip `\r`, split on blank lines, parse each block. -/
def parseSseChunk (raw : Str) : List SseEvent :=
  (splitNN (removeCR raw)).filterMap parseBlock

/-- One `read()` iteration of `streamSse`: append the decoded chunk to the
buffer, strip `\r`, and if a blank-line delimiter is present parse everything
up to the last one, retaining the remainder. -/
def streamStep (buffer chunk : Str) : List SseEvent × Str :=
  let buf := removeCR (buffer ++ chunk)
  match strLastIndexOf buf (strOf "\n\n") with
  | none => ([], buf)
  | some i => (parseSseChunk (buf.take i), buf.drop (i + 2))

/-- Run `streamSse`'s loop over a list of decoded chunks starting from a given
buffer; the trailing undelimited buffer at end-of-stream is discarded. -/
def streamRunFrom (buffer : Str) : List Str → List SseEvent
  | [] => []
  | c :: cs =>
    let r := streamStep buffer c
    r.1 ++ streamRunFrom r.2 cs

/-- The ordered sequence of records `streamSse` emits for a chunked stream. -/
def streamRun (chunks : List Str) : List SseEvent := streamRunFrom [] chunks

/-- The newline normalization asserted by the spec (stated for comparison with
the code): every `\r\n` and every lone `\r` replaced by `\n`. -/
def normalizeNewlinesSpec : Str → Str
  | [] => []
  | '\r' :: '\n' :: rest => '\n' :: normalizeNewlinesSpec rest
  | '\r' :: rest => '\n' :: normalizeNewlinesSpec rest
  | c :: rest => c :: normalizeNewlinesSpec rest

/-- The value extraction asserted by the spec (stated for comparison with the
code): the substring after the first `:` with at most one leading space
stripped. -/
def lineValueSpec (line : Str) : Str :=
  match strIndexOf line (strOf ":") with
  | none => []
  | some i =>
    match line.drop (i + 1) with
    | ' ' :: rest => rest
    | rest => rest

end Sse

/-- Shallow JSON values; numbers are modelled as integers. -/
inductive Json where
  | null
  | jbool (b : Bool)
  | num (n : Int)
  | str (s : Str)
  | arr (xs : List Json)
  | obj (fields : List (Str × Json))

/-- First-match association-list lookup (object member access). -/
def lookupKey : List (Str × Json) → Str → Option Json
  | [], _ => none
  | (k', v) :: rest, k => if k' = k then some v else lookupKey rest k

/-- `j?.k`: member access, `none` when absent or not an object. -/
def Json.get? : Json → Str → Option Json
  | .obj fields, k => lookupKey fields k
  | _, _ => none

/-- `j?.[i]`: array index access. -/
def Json.at? : Json → Nat → Option Json
  | .arr xs, i => xs[i]?
  | _, _ => none

/-- `typeof j === 'string' ? j : undefined`. -/
def Json.asString : Json → Option Str
  | .str s => some s
  | _ => none

/-- `typeof j === 'number' ? j : undefined`. -/
def Json.asInt : Json → Option Int
  | .num n => some n
  | _ => none

/-- The outcome of `JSON.parse` on one SSE `data` string: the literal
`[DONE]`, the empty string, a nonempty unparseable string, or a parsed value. -/
inductive SseData where
  | doneLit
  | emptyStr
  | invalid
  | ok (j : Json)

/-- `TokenUsage`: `{ inputTokens?, outputTokens?, totalTokens? }`. -/
structure TokenUsage where
  inputTokens : Option Int
  outputTokens : Option Int
  totalTokens : Option Int
deriving DecidableEq, Repr

namespace ThoughtChain

/-- Modelled from the spec: "Usage: if a `usage` object is present
(`prompt_tokens`, `completion_tokens`, `total_tokens`), map to `TokenUsage`
with the same numeric values as `inputTokens`/`outputTokens`/`totalTokens`."
The usage extraction is missing from the `src/` snapshot of
`parseOpenAiSseData` (the repository's tests and the `applyOpenAiDelta`
caller in `+page.svelte` both consume a `usage` field it returns). -/
def openAiUsage (parsed : Json) : Option TokenUsage :=
  match parsed.get? (strOf "usage") with
  | some u =>
    some ⟨(u.get? (strOf "prompt_tokens")).bind Json.asInt,
          (u.get? (strOf "completion_tokens")).bind Json.asInt,
          (u.get? (strOf "total_tokens")).bind Json.asInt⟩
  | none => none

/-- The result record of `parseOpenAiSseData`; the `usage` field is the
spec-modelled extension (see `openAiUsage`). -/
structure OpenAiDelta where
  done : Bool
  contentDelta : Str
  thinkingDelta : Str
  usage : Option TokenUsage
deriving DecidableEq, Repr

/-- `parseOpenAiSseData(data)`: `[DONE]` handling, the guard for empty or
non-string data, JSON parsing with the no-op fallback, and extraction of
`choices[0].delta.content` / `choices[0].text` and the reasoning fields. -/
def parseOpenAiSseData (data : SseData) : OpenAiDelta :=
  match data with
  | .doneLit => ⟨true, [], [], none⟩
  | .emptyStr => ⟨false, [], [], none⟩
  | .invalid => ⟨false, [], [], none⟩
  | .ok parsed =>
    let choice := ((parsed.get? (strOf "choices")).bind (fun c => c.at? 0)).getD (Json.obj [])
    let delta := (choice.get? (strOf "delta")).getD (Json.obj [])
    let contentDelta :=
      match (delta.get? (strOf "content")).bind Json.asString with
      | some s => s
      | none =>
        match (choice.get? (strOf "text")).bind Json.asString with
        | some s => s
        | none => []
    let thinkingDelta :=
      match (delta.get? (strOf "reasoning")).bind Json.asString with
      | some s => s
      | none =>
        match (delta.get? (strOf "reasoning_content")).bind Json.asString with
        | some s => s
        | none =>
          match (delta.get? (strOf "thinking")).bind Json.asString with
          | some s => s
          | none => []
    ⟨false, contentDelta, thinkingDelta, openAiUsage parsed⟩

/-- `AnthropicSseContext`: `{ blockTypes: Map<number, string> }`.  The map is
modelled as an association list; `Map.set` prepends (first-match lookup then
returns the most recent binding, observationally the same as `Map.get`). -/
structure AnthropicSseContext where
  blockTypes : List (Int × Str)

/-- `createAnthropicSseContext()`. -/
def createAnthropicSseContext : AnthropicSseContext := ⟨[]⟩

/-- `ctx.blockTypes.get(i)`. -/
def AnthropicSseContext.getType (ctx : AnthropicSseContext) (i : Int) : Option Str :=
  (ctx.blockTypes.find? (fun p => p.1 = i)).map (·.2)

/-- `ctx.blockTypes.set(i, t)`. -/
def AnthropicSseContext.setType (ctx : AnthropicSseContext) (i : Int) (t : Str) :
    AnthropicSseContext := ⟨(i, t) :: ctx.blockTypes⟩

/-- The SSE event shape consumed by `parseAnthropicSseEvent`; `data` is the
raw data string through its `JSON.parse` outcome. -/
structure AnthEvent where
  event : Option Str
  data : SseData

/-- The result record of `parseAnthropicSseEvent`; the `usage` field is the
spec-modelled extension (see `anthropicUsage`). -/
structure AnthDelta where
  contentDelta : Str
  thinkingDelta : Str
  usage : Option TokenUsage
deriving DecidableEq, Repr

/-- `typeof delta?.type === 'string' ? delta.type : ''`. -/
def anthDeltaType (delta : Json) : Str :=
  ((delta.get? (strOf "type")).bind Json.asString).getD []

/-- The text-shaped extraction of `parseAnthropicSseEvent`:
`delta.text`, `delta.text_delta.text`, or (`delta.type === 'text_delta'`)
`delta.text`. -/
def anthTextDelta (delta : Json) : Str :=
  match (delta.get? (strOf "text")).bind Json.asString with
  | some s => s
  | none =>
    match ((delta.get? (strOf "text_delta")).bind (fun t => t.get? (strOf "text"))).bind
        Json.asString with
    | some s => s
    | none =>
      if anthDeltaType delta = strOf "text_delta" then
        match (delta.get? (strOf "text")).bind Json.asString with
        | some s => s
        | none => []
      else []

/-- The thinking-shaped extraction of `parseAnthropicSseEvent`:
`delta.thinking`, `delta.thinking_delta.thinking`, or
(`delta.type === 'thinking_delta'`) `delta.thinking`. -/
def anthThinkingDelta (delta : Json) : Str :=
  match (delta.get? (strOf "thinking")).bind Json.asString with
  | some s => s
  | none =>
    match ((delta.get? (strOf "thinking_delta")).bind
        (fun t => t.get? (strOf "thinking"))).bind Json.asString with
    | some s => s
    | none =>
      if anthDeltaType delta = strOf "thinking_delta" then
        match (delta.get? (strOf "thinking")).bind Json.asString with
        | some s => s
        | none => []
      else []

/-- Modelled from the spec: "`message_start`/`message_delta` are inspected for
a `usage` object (`input_tokens`, `output_tokens`) to populate TokenUsage;
absent fields are left absent."  This inspection is missing from the `src/`
snapshot of `parseAnthropicSseEvent` (the repository's tests and the
`applyAnthropicDelta` caller consume the `usage` field).  The spec does not
say where the object lives; the repository's test nests it under `message`,
so both the payload root and `message` are inspected. -/
def anthropicUsage (parsed : Json) : Option TokenUsage :=
  let uj :=
    match parsed.get? (strOf "usage") with
    | some u => some u
    | none => (parsed.get? (strOf "message")).bind (fun m => m.get? (strOf "usage"))
  match uj with
  | some u =>
    some ⟨(u.get? (strOf "input_tokens")).bind Json.asInt,
          (u.get? (strOf "output_tokens")).bind Json.asInt,
          none⟩
  | none => none

/-- `parseAnthropicSseEvent(event, ctx)`: the `!event?.data` guard, JSON
parsing with the no-op fallback, `content_block_start` context recording,
the spec-modelled `message_start`/`message_delta` usage inspection, and
block-type-directed routing of `content_block_delta` payloads. -/
def parseAnthropicSseEvent (ev : AnthEvent) (ctx : AnthropicSseContext) :
    AnthDelta × AnthropicSseContext :=
  match ev.data with
  | .ok parsed =>
    let type :=
      match ev.event with
      | some s => s
      | none => ((parsed.get? (strOf "type")).bind Json.asString).getD []
    if type = strOf "content_block_start" then
      match parsed.get? (strOf "index"),
          ((parsed.get? (strOf "content_block")).bind
            (fun b => b.get? (strOf "type"))).bind Json.asString with
      | some (.num i), some bt => (⟨[], [], none⟩, ctx.setType i bt)
      | _, _ => (⟨[], [], none⟩, ctx)
    else if type = strOf "message_start" ∨ type = strOf "message_delta" then
      (⟨[], [], anthropicUsage parsed⟩, ctx)
    else if type ≠ strOf "content_block_delta" then (⟨[], [], none⟩, ctx)
    else
      let blockType :=
        match parsed.get? (strOf "index") with
        | some (.num i) => ctx.getType i
        | _ => none
      let delta := (parsed.get? (strOf "delta")).getD (Json.obj [])
      let textDelta := anthTextDelta delta
      let thinkingDelta := anthThinkingDelta delta
      let isThinkingBlock := blockType = some (strOf "thinking") ∨
        blockType = some (strOf "redacted_thinking") ∨
        blockType = some (strOf "thinking_summary")
      if isThinkingBlock then
        (⟨[], if thinkingDelta ≠ [] then thinkingDelta else textDelta, none⟩, ctx)
      else
        (⟨textDelta, thinkingDelta, none⟩, ctx)
  | _ => (⟨[], [], none⟩, ctx)

end ThoughtChain

namespace Page

/-- `mergeTokenUsage(current, patch)` from `+page.svelte`: monotone max-merge
of observed fields, with `totalTokens` derived as the sum when absent and
both components are present; an all-absent result collapses to `null`. -/
def mergeTokenUsage (current : Option TokenUsage) (patch : Option TokenUsage) :
    Option TokenUsage :=
  match patch with
  | none => current
  | some p =>
    let next0 : TokenUsage :=
      match current with
      | some c => c
      | none => ⟨none, none, none⟩
    let next1 :=
      match p.inputTokens with
      | some v =>
        let w := match next0.inputTokens with | some w => max w v | none => v
        { next0 with inputTokens := some w }
      | none => next0
    let next2 :=
      match p.outputTokens with
      | some v =>
        let w := match next1.outputTokens with | some w => max w v | none => v
        { next1 with outputTokens := some w }
      | none => next1
    let next3 :=
      match p.totalTokens with
      | some v =>
        let w := match next2.totalTokens with | some w => max w v | none => v
        { next2 with totalTokens := some w }
      | none => next2
    let next4 :=
      match next3.totalTokens, next3.inputTokens, next3.outputTokens with
      | none, some i, some o => { next3 with totalTokens := some (i + o) }
      | _, _, _ => next3
    if next4 = (⟨none, none, none⟩ : TokenUsage) then none else some next4

end Page

/-- One field of the max-merge stage of `mergeTokenUsage` (verification
helper used to characterize the merge). -/
def mergeField (cur patch : Option Int) : Option Int :=
  match patch with
  | some v =>
    match cur with
    | some w => some (max w v)
    | none => some v
  | none => cur

/-- The max-merge stage of `mergeTokenUsage` over all three fields
(verification helper). -/
def maxMergeUsage (cur q : TokenUsage) : TokenUsage :=
  ⟨mergeField cur.inputTokens q.inputTokens,
   mergeField cur.outputTokens q.outputTokens,
   mergeField cur.totalTokens q.totalTokens⟩

/-- The total-derivation stage of `mergeTokenUsage` (verification helper). -/
def deriveTotal (u : TokenUsage) : TokenUsage :=
  match u.totalTokens, u.inputTokens, u.outputTokens with
  | none, some i, some o => { u with totalTokens := some (i + o) }
  | _, _, _ => u

/-- The `Object.keys(next).length` collapse of `mergeTokenUsage`
(verification helper). -/
def collapseEmpty (u : TokenUsage) : Option TokenUsage :=
  if u = ⟨none, none, none⟩ then none else some u

namespace ThoughtChain

/-- One emission of the splitter, in order of occurrence: a piece of text
routed to a bucket, or a consumed tag occurrence (the exact characters
consumed from the buffer).  Instrumentation of the `push` loop, used to state
the no-loss invariant. -/
inductive OutEvent where
  | piece (thinking : Bool) (text : Str)
  | tagTok (consumed : Str)
deriving DecidableEq, Repr

/-- The text an emission carries. -/
def OutEvent.text : OutEvent → Str
  | .piece _ t => t
  | .tagTok t => t

/-- Concatenation of the text of a sequence of emissions, in order. -/
def eventsText (evts : List OutEvent) : Str := (evts.map OutEvent.text).flatten

/-- Event-level image of `append(out, text)`: empty text emits nothing. -/
def appendEvt (inThinking : Bool) (text : Str) : List OutEvent :=
  if text = [] then [] else [OutEvent.piece inThinking text]

/-- Event trace of the `push` tag loop (same recursion as `tagLoopF`). -/
def tagLoopFT (cfg : SplitterCfg) : Nat → Str → Bool → List OutEvent × Str × Bool
  | 0, buffer, inThinking => ([], buffer, inThinking)
  | fuel + 1, buffer, inThinking =>
    match findNextTag buffer cfg.openTags cfg.closeTags with
    | none => ([], buffer, inThinking)
    | some hit =>
      let rest := tagLoopFT cfg fuel (buffer.drop (hit.index + hit.tag.length))
        (hit.kind == TagKind.openTag)
      (appendEvt inThinking (buffer.take hit.index) ++
        OutEvent.tagTok ((buffer.drop hit.index).take hit.tag.length) :: rest.1,
       rest.2)

/-- Event trace of the tag loop with the canonical fuel. -/
def tagLoopT (cfg : SplitterCfg) (buffer : Str) (inThinking : Bool) :
    List OutEvent × Str × Bool :=
  tagLoopFT cfg (buffer.length + 1) buffer inThinking

/-- Event trace of one `push` call on a string chunk. -/
def pushStrT (cfg : SplitterCfg) (st : SplitterState) (chunk : Str) :
    List OutEvent × SplitterState :=
  if chunk = [] then ([], st)
  else
    let buffer0 := st.buffer ++ chunk
    let r := tagLoopT cfg buffer0 st.inThinking
    let buffer := r.2.1
    let inThinking := r.2.2
    let keep := calcKeepTailLen cfg buffer
    if 0 < keep then
      (r.1 ++ appendEvt inThinking (buffer.take (buffer.length - keep)),
       ⟨buffer.drop (buffer.length - keep), inThinking⟩)
    else if buffer ≠ [] then
      (r.1 ++ appendEvt inThinking buffer, ⟨[], inThinking⟩)
    else
      (r.1, ⟨buffer, inThinking⟩)

/-- Event trace of `flush()`. -/
def flushT (st : SplitterState) : List OutEvent × SplitterState :=
  (appendEvt st.inThinking st.buffer, ⟨[], st.inThinking⟩)

/-- Event traces of a sequence of `push` calls. -/
def runPushesT (cfg : SplitterCfg) (st : SplitterState) :
    List Str → List (List OutEvent) × SplitterState
  | [] => ([], st)
  | c :: cs =>
    let r := pushStrT cfg st c
    let rest := runPushesT cfg r.2 cs
    (r.1 :: rest.1, rest.2)

/-- Collapse an event list to the `{contentDelta, thinkingDelta}` record that
the code accumulates (tag consumptions emit nothing). -/
def deltaOfEvents (evts : List OutEvent) : Delta :=
  evts.foldl
    (fun d e =>
      match e with
      | .piece th t => appendOut th d t
      | .tagTok _ => d)
    emptyDelta

/-- A (pre-lowered) tag occurs at index `i` of the lowercased buffer. -/
def OccAt (tag : Str) (i : Nat) (B : Str) : Prop :=
  strLeads tag ((lowerStr B).drop i) = true

/-- The configured tags with their kinds, in scan order. -/
def TagsOf (cfg : SplitterCfg) : List (Str × TagKind) :=
  cfg.openTags.map (fun t => (t, TagKind.openTag)) ++
    cfg.closeTags.map (fun t => (t, TagKind.closeTag))

/-- Specification of the running best hit of `findNextTag`'s scan over a set
of already-considered tags. -/
def BestSpec (lower : Str) (pairs : List (Str × TagKind)) (best : Option TagHit) : Prop :=
  match best with
  | none => ∀ p ∈ pairs, strIndexOf lower p.1 = none
  | some h =>
    (h.tag, h.kind) ∈ pairs ∧ strIndexOf lower h.tag = some h.index ∧
      ∀ p ∈ pairs, ∀ j, strIndexOf lower p.1 = some j → h.index ≤ j

end ThoughtChain

section Examples

open ThoughtChain

example : pushStr dCfg initState (strOf "Hello <thi") =
    (⟨strOf "Hello ", []⟩, ⟨strOf "<thi", false⟩) := by decide

example : pushStr dCfg ⟨strOf "<thi", false⟩ (strOf "nk>reasoning") =
    (⟨[], strOf "reasoning"⟩, ⟨[], true⟩) := by decide

example : pushStr dCfg ⟨[], true⟩ (strOf "</think> world") =
    (⟨strOf " world", []⟩, ⟨[], false⟩) := by decide

example : pushStr dCfg initState (strOf "a<") = (⟨strOf "a", []⟩, ⟨strOf "<", false⟩) := by decide

example : pushStr dCfg ⟨strOf "<", false⟩ (strOf "b") =
    (⟨strOf "<b", []⟩, ⟨[], false⟩) := by decide

example : parseOpenAiSseData .doneLit = ⟨true, [], [], none⟩ := rfl

example :
    parseOpenAiSseData (.ok (Json.obj [(strOf "choices",
      Json.arr [Json.obj [(strOf "delta",
        Json.obj [(strOf "content", Json.str (strOf "hi"))])]])])) =
    ⟨false, strOf "hi", [], none⟩ := by decide

example :
    parseOpenAiSseData (.ok (Json.obj [(strOf "choices",
      Json.arr [Json.obj [(strOf "text", Json.str (strOf "legacy"))]])])) =
    ⟨false, strOf "legacy", [], none⟩ := by decide

example :
    parseOpenAiSseData (.ok (Json.obj
      [(strOf "choices", Json.arr [Json.obj [(strOf "delta", Json.obj [])]]),
       (strOf "usage", Json.obj
         [(strOf "prompt_tokens", Json.num 12),
          (strOf "completion_tokens", Json.num 34),
          (strOf "total_tokens", Json.num 46)])])) =
    ⟨false, [], [], some ⟨some 12, some 34, some 46⟩⟩ := by decide

example :
    (parseAnthropicSseEvent
      ⟨some (strOf "content_block_delta"),
       .ok (Json.obj [(strOf "index", Json.num 0),
         (strOf "delta", Json.obj [(strOf "thinking", Json.str (strOf "t"))])])⟩
      (createAnthropicSseContext.setType 0 (strOf "thinking"))).1 =
    ⟨[], strOf "t", none⟩ := by decide

example :
    (parseAnthropicSseEvent
      ⟨some (strOf "content_block_delta"),
       .ok (Json.obj [(strOf "index", Json.num 1),
         (strOf "delta", Json.obj [(strOf "text", Json.str (strOf "hi"))])])⟩
      ((createAnthropicSseContext.setType 0 (strOf "thinking")).setType 1 (strOf "text"))).1 =
    ⟨strOf "hi", [], none⟩ := by decide

example :
    Page.mergeTokenUsage
      (Page.mergeTokenUsage
        (Page.mergeTokenUsage none (some ⟨some 5, none, none⟩))
        (some ⟨none, some 3, none⟩))
      (some ⟨some 2, none, none⟩) = some ⟨some 5, some 3, some 8⟩ := by decide

example :
    Sse.streamRun [strOf "data: a\n\nda", strOf "ta: b\n\ndata: c"] =
    [⟨none, none, strOf "a"⟩, ⟨none, none, strOf "b"⟩] := by decide

example :
    Sse.streamRun [strOf "data: x\rdata: y\n\n"] = [⟨none, none, strOf "xdata: y"⟩] := by
  decide

example :
    Sse.streamRun [strOf "data: x\ndata: y\n\n"] = [⟨none, none, strOf "x\ny"⟩] := by
  decide

end Examples

theorem mergeTokenUsage_some_some (cur q : TokenUsage) :
    Page.mergeTokenUsage (some cur) (some q) =
      collapseEmpty (deriveTotal (maxMergeUsage cur q)) := by
  rcases cur with ⟨ci, co, ct⟩
  rcases q with ⟨qi, qo, qt⟩
  rcases ci with _ | ci <;> rcases co with _ | co <;> rcases ct with _ | ct <;>
    rcases qi with _ | qi <;> rcases qo with _ | qo <;> rcases qt with _ | qt <;> rfl

theorem mergeTokenUsage_none_some (q : TokenUsage) :
    Page.mergeTokenUsage none (some q) =
      collapseEmpty (deriveTotal (maxMergeUsage ⟨none, none, none⟩ q)) := by
  rcases q with ⟨qi, qo, qt⟩
  rcases qi with _ | qi <;> rcases qo with _ | qo <;> rcases qt with _ | qt <;> rfl

theorem mergeField_some_left (v : Int) (p : Option Int) :
    ∃ w, mergeField (some v) p = some w ∧ v ≤ w := by
  cases p with
  | none => exact ⟨v, rfl, le_refl v⟩
  | some x => exact ⟨max v x, rfl, le_max_left v x⟩

theorem deriveTotal_input (u : TokenUsage) :
    (deriveTotal u).inputTokens = u.inputTokens := by
  rcases u with ⟨i, o, t⟩
  rcases t with _ | t <;> rcases i with _ | i <;> rcases o with _ | o <;> rfl

theorem deriveTotal_output (u : TokenUsage) :
    (deriveTotal u).outputTokens = u.outputTokens := by
  rcases u with ⟨i, o, t⟩
  rcases t with _ | t <;> rcases i with _ | i <;> rcases o with _ | o <;> rfl

theorem deriveTotal_total_of_some (u : TokenUsage) (w : Int) (h : u.totalTokens = some w) :
    (deriveTotal u).totalTokens = some w := by
  rcases u with ⟨i, o, t⟩
  cases h
  rcases i with _ | i <;> rcases o with _ | o <;> rfl

theorem deriveTotal_derives (u : TokenUsage) (i o : Int) (ht : u.totalTokens = none)
    (hi : u.inputTokens = some i) (ho : u.outputTokens = some o) :
    (deriveTotal u).totalTokens = some (i + o) := by
  rcases u with ⟨ui, uo, ut⟩
  cases ht; cases hi; cases ho
  rfl

theorem collapseEmpty_ne (u : TokenUsage) (h : u ≠ ⟨none, none, none⟩) :
    collapseEmpty u = some u := by
  simp [collapseEmpty, h]

theorem collapseEmpty_some_inv (a u : TokenUsage) (h : collapseEmpty a = some u) : u = a := by
  unfold collapseEmpty at h
  by_cases ha : a = (⟨none, none, none⟩ : TokenUsage)
  · rw [if_pos ha] at h; cases h
  · rw [if_neg ha] at h; cases h; rfl

/-- C9: token-usage merging is monotone: an already-observed
`inputTokens`/`outputTokens`/`totalTokens` field is only raised via `max()`
and never lowered; `totalTokens` is derived as `inputTokens + outputTokens`
when absent; and merging `{inputTokens: 5}`, then `{outputTokens: 3}`, then
`{inputTokens: 2}` yields `inputTokens = 5`, `outputTokens = 3`,
`totalTokens = 8`. -/
theorem claim9_merge_monotone :
    (∀ (cur : TokenUsage) (p : Option TokenUsage) (v : Int),
       cur.inputTokens = some v →
       ∃ u w, Page.mergeTokenUsage (some cur) p = some u ∧
         u.inputTokens = some w ∧ v ≤ w) ∧
    (∀ (cur : TokenUsage) (p : Option TokenUsage) (v : Int),
       cur.outputTokens = some v →
       ∃ u w, Page.mergeTokenUsage (some cur) p = some u ∧
         u.outputTokens = some w ∧ v ≤ w) ∧
    (∀ (cur : TokenUsage) (p : Option TokenUsage) (v : Int),
       cur.totalTokens = some v →
       ∃ u w, Page.mergeTokenUsage (some cur) p = some u ∧
         u.totalTokens = some w ∧ v ≤ w) ∧
    (∀ (c : Option TokenUsage) (q u : TokenUsage) (i o : Int),
       (∀ x, c = some x → x.totalTokens = none) → q.totalTokens = none →
       Page.mergeTokenUsage c (some q) = some u →
       u.inputTokens = some i → u.outputTokens = some o →
       u.totalTokens = some (i + o)) ∧
    Page.mergeTokenUsage
      (Page.mergeTokenUsage
        (Page.mergeTokenUsage none (some ⟨some 5, none, none⟩))
        (some ⟨none, some 3, none⟩))
      (some ⟨some 2, none, none⟩) = some ⟨some 5, some 3, some 8⟩ := by
  refine ⟨?_, ?_, ?_, ?_, by decide⟩
  · intro cur p v h
    cases p with
    | none => exact ⟨cur, v, rfl, h, le_refl v⟩
    | some q =>
      rw [mergeTokenUsage_some_some]
      obtain ⟨w, hw, hvw⟩ := mergeField_some_left v q.inputTokens
      have hin : (deriveTotal (maxMergeUsage cur q)).inputTokens = some w := by
        rw [deriveTotal_input]
        show mergeField cur.inputTokens q.inputTokens = some w
        rw [h, hw]
      refine ⟨deriveTotal (maxMergeUsage cur q), w, ?_, hin, hvw⟩
      exact collapseEmpty_ne _ (fun heq => by rw [heq] at hin; simp at hin)
  · intro cur p v h
    cases p with
    | none => exact ⟨cur, v, rfl, h, le_refl v⟩
    | some q =>
      rw [mergeTokenUsage_some_some]
      obtain ⟨w, hw, hvw⟩ := mergeField_some_left v q.outputTokens
      have hout : (deriveTotal (maxMergeUsage cur q)).outputTokens = some w := by
        rw [deriveTotal_output]
        show mergeField cur.outputTokens q.outputTokens = some w
        rw [h, hw]
      refine ⟨deriveTotal (maxMergeUsage cur q), w, ?_, hout, hvw⟩
      exact collapseEmpty_ne _ (fun heq => by rw [heq] at hout; simp at hout)
  · intro cur p v h
    cases p with
    | none => exact ⟨cur, v, rfl, h, le_refl v⟩
    | some q =>
      rw [mergeTokenUsage_some_some]
      obtain ⟨w, hw, hvw⟩ := mergeField_some_left v q.totalTokens
      have hmax : (maxMergeUsage cur q).totalTokens = some w := by
        show mergeField cur.totalTokens q.totalTokens = some w
        rw [h, hw]
      have htot : (deriveTotal (maxMergeUsage cur q)).totalTokens = some w :=
        deriveTotal_total_of_some _ _ hmax
      refine ⟨deriveTotal (maxMergeUsage cur q), w, ?_, htot, hvw⟩
      exact collapseEmpty_ne _ (fun heq => by rw [heq] at htot; simp at htot)
  · intro c q u i o hc hq hmerge hi ho
    have key : ∀ c0 : TokenUsage, c0.totalTokens = none →
        Page.mergeTokenUsage (some c0) (some q) = some u → u.totalTokens = some (i + o) := by
      intro c0 hc0 hm
      rw [mergeTokenUsage_some_some] at hm
      have hu : u = deriveTotal (maxMergeUsage c0 q) := collapseEmpty_some_inv _ _ hm
      have hmt : (maxMergeUsage c0 q).totalTokens = none := by
        show mergeField c0.totalTokens q.totalTokens = none
        rw [hc0, hq]
        rfl
      have hmi : (maxMergeUsage c0 q).inputTokens = some i := by
        rw [← deriveTotal_input, ← hu]; exact hi
      have hmo : (maxMergeUsage c0 q).outputTokens = some o := by
        rw [← deriveTotal_output, ← hu]; exact ho
      rw [hu]
      exact deriveTotal_derives _ i o hmt hmi hmo
    cases c with
    | some x => exact key x (hc x rfl) hmerge
    | none =>
      rw [mergeTokenUsage_none_some] at hmerge
      have hu : u = deriveTotal (maxMergeUsage ⟨none, none, none⟩ q) :=
        collapseEmpty_some_inv _ _ hmerge
      have hmt : (maxMergeUsage (⟨none, none, none⟩ : TokenUsage) q).totalTokens = none := by
        show mergeField none q.totalTokens = none
        rw [hq]
        rfl
      have hmi : (maxMergeUsage (⟨none, none, none⟩ : TokenUsage) q).inputTokens = some i := by
        rw [← deriveTotal_input, ← hu]; exact hi
      have hmo : (maxMergeUsage (⟨none, none, none⟩ : TokenUsage) q).outputTokens = some o := by
        rw [← deriveTotal_output, ← hu]; exact ho
      rw [hu]
      exact deriveTotal_derives _ i o hmt hmi hmo

/-- C9 witness: the derivation clause applied at the concrete merge
`{inputTokens: 5} ⊕ {outputTokens: 3}`. -/
theorem claim9_merge_monotone_witness :
    (⟨some 5, some 3, some 8⟩ : TokenUsage).totalTokens = some (5 + 3) :=
  claim9_merge_monotone.2.2.2.1 (some ⟨some 5, none, none⟩) ⟨none, some 3, none⟩
    ⟨some 5, some 3, some 8⟩ 5 3 (fun x hx => by cases hx; rfl) rfl (by decide) rfl rfl

/-- C10: `push` called with the empty string or a non-string argument returns
empty deltas and leaves the splitter state (buffer and `inThinking`)
unchanged. -/
theorem claim10_push_guard (st : ThoughtChain.SplitterState) :
    ThoughtChain.push ThoughtChain.dCfg st none = (ThoughtChain.emptyDelta, st) ∧
    ThoughtChain.push ThoughtChain.dCfg st (some []) = (ThoughtChain.emptyDelta, st) :=
  ⟨rfl, rfl⟩

/-- C8: a data payload that is not the literal `[DONE]` and is not valid JSON
(including the empty string) yields `done: false` and empty deltas from
`parseOpenAiSseData`, and empty deltas with an unchanged context from
`parseAnthropicSseEvent`; both parsers are total, so no parsing-layer error
escapes the decoder boundary. -/
theorem claim8_parse_error_noop :
    ThoughtChain.parseOpenAiSseData .invalid = ⟨false, [], [], none⟩ ∧
    ThoughtChain.parseOpenAiSseData .emptyStr = ⟨false, [], [], none⟩ ∧
    ∀ (e : Option Str) (ctx : ThoughtChain.AnthropicSseContext),
      ThoughtChain.parseAnthropicSseEvent ⟨e, .invalid⟩ ctx = (⟨[], [], none⟩, ctx) ∧
      ThoughtChain.parseAnthropicSseEvent ⟨e, .emptyStr⟩ ctx = (⟨[], [], none⟩, ctx) ∧
      ThoughtChain.parseAnthropicSseEvent ⟨e, .doneLit⟩ ctx = (⟨[], [], none⟩, ctx) :=
  ⟨rfl, rfl, fun _ _ => ⟨rfl, rfl, rfl⟩⟩

/-- C3: an OpenAI-style SSE payload whose parsed JSON carries a `usage`
object with `prompt_tokens`, `completion_tokens` and `total_tokens` yields a
`TokenUsage` with `inputTokens`/`outputTokens`/`totalTokens` equal to those
values (usage extraction modelled from the spec, see `openAiUsage`). -/
theorem claim3_openai_usage_mapping (parsed u : Json) (p c t : Int)
    (hu : parsed.get? (strOf "usage") = some u)
    (hp : u.get? (strOf "prompt_tokens") = some (Json.num p))
    (hc : u.get? (strOf "completion_tokens") = some (Json.num c))
    (ht : u.get? (strOf "total_tokens") = some (Json.num t)) :
    (ThoughtChain.parseOpenAiSseData (.ok parsed)).usage = some ⟨some p, some c, some t⟩ := by
  show ThoughtChain.openAiUsage parsed = some ⟨some p, some c, some t⟩
  unfold ThoughtChain.openAiUsage
  rw [hu]
  simp [hp, hc, ht, Json.asInt]

/-- C3 witness: the repository's own test payload with usage 12/34/46. -/
theorem claim3_openai_usage_mapping_witness :
    (ThoughtChain.parseOpenAiSseData (.ok (Json.obj
      [(strOf "choices", Json.arr [Json.obj [(strOf "delta", Json.obj [])]]),
       (strOf "usage", Json.obj
         [(strOf "prompt_tokens", Json.num 12),
          (strOf "completion_tokens", Json.num 34),
          (strOf "total_tokens", Json.num 46)])]))).usage =
      some ⟨some 12, some 34, some 46⟩ :=
  claim3_openai_usage_mapping _ _ 12 34 46 rfl rfl rfl rfl

/-- C4: an Anthropic `message_start` or `message_delta` event whose payload
carries a `usage` object (at the payload root or under `message`) yields a
`TokenUsage` populated from `input_tokens`/`output_tokens`, absent fields
left absent, with empty deltas and an unchanged context (usage inspection
modelled from the spec, see `anthropicUsage`). -/
theorem claim4_anthropic_usage_events :
    (∀ (ctx : ThoughtChain.AnthropicSseContext) (e : Str) (parsed u : Json),
      (e = strOf "message_start" ∨ e = strOf "message_delta") →
      parsed.get? (strOf "usage") = some u →
      ThoughtChain.parseAnthropicSseEvent ⟨some e, .ok parsed⟩ ctx =
        (⟨[], [], some ⟨(u.get? (strOf "input_tokens")).bind Json.asInt,
                        (u.get? (strOf "output_tokens")).bind Json.asInt, none⟩⟩, ctx)) ∧
    (∀ (ctx : ThoughtChain.AnthropicSseContext) (e : Str) (parsed m u : Json),
      (e = strOf "message_start" ∨ e = strOf "message_delta") →
      parsed.get? (strOf "usage") = none →
      parsed.get? (strOf "message") = some m →
      m.get? (strOf "usage") = some u →
      ThoughtChain.parseAnthropicSseEvent ⟨some e, .ok parsed⟩ ctx =
        (⟨[], [], some ⟨(u.get? (strOf "input_tokens")).bind Json.asInt,
                        (u.get? (strOf "output_tokens")).bind Json.asInt, none⟩⟩, ctx)) := by
  constructor
  · intro ctx e parsed u he hu
    unfold ThoughtChain.parseAnthropicSseEvent
    rcases he with rfl | rfl <;>
    · dsimp only
      rw [if_neg (by decide), if_pos (by decide)]
      unfold ThoughtChain.anthropicUsage
      rw [hu]
  · intro ctx e parsed m u he hroot hm hu
    unfold ThoughtChain.parseAnthropicSseEvent
    rcases he with rfl | rfl <;>
    · dsimp only
      rw [if_neg (by decide), if_pos (by decide)]
      unfold ThoughtChain.anthropicUsage
      rw [hroot, hm]
      simp [hu]

/-- C4 witness: the repository's own test event, `message_start` with
`message.usage` holding `input_tokens` 9 and `output_tokens` 0. -/
theorem claim4_anthropic_usage_events_witness :
    ThoughtChain.parseAnthropicSseEvent
      ⟨some (strOf "message_start"),
       .ok (Json.obj [(strOf "message", Json.obj [(strOf "usage", Json.obj
         [(strOf "input_tokens", Json.num 9), (strOf "output_tokens", Json.num 0)])])])⟩
      ThoughtChain.createAnthropicSseContext =
      (⟨[], [], some ⟨((Json.obj
         [(strOf "input_tokens", Json.num 9), (strOf "output_tokens", Json.num 0)]).get?
            (strOf "input_tokens")).bind Json.asInt,
        ((Json.obj
         [(strOf "input_tokens", Json.num 9), (strOf "output_tokens", Json.num 0)]).get?
            (strOf "output_tokens")).bind Json.asInt, none⟩⟩,
       ThoughtChain.createAnthropicSseContext) :=
  claim4_anthropic_usage_events.2 ThoughtChain.createAnthropicSseContext _ _ _ _
    (Or.inl rfl) rfl rfl rfl

/-- C7: a `content_block_delta` at an index whose type was recorded by
`content_block_start` is routed by the remembered type: thinking-like types
send the extracted value (thinking-shaped preferred, text-shaped fallback)
to `thinkingDelta` with empty `contentDelta`; any other type sends the
text-shaped extraction to `contentDelta` and the thinking-shaped one to
`thinkingDelta`. -/
theorem claim7_anthropic_routing (ctx : ThoughtChain.AnthropicSseContext) (i : Int)
    (bt : Str) (parsed d : Json)
    (hctx : ctx.getType i = some bt)
    (hidx : parsed.get? (strOf "index") = some (Json.num i))
    (hd : parsed.get? (strOf "delta") = some d) :
    ThoughtChain.parseAnthropicSseEvent
        ⟨some (strOf "content_block_delta"), .ok parsed⟩ ctx =
      (if bt = strOf "thinking" ∨ bt = strOf "redacted_thinking" ∨
          bt = strOf "thinking_summary" then
        (⟨[], if ThoughtChain.anthThinkingDelta d ≠ [] then ThoughtChain.anthThinkingDelta d
              else ThoughtChain.anthTextDelta d, none⟩ : ThoughtChain.AnthDelta)
       else ⟨ThoughtChain.anthTextDelta d, ThoughtChain.anthThinkingDelta d, none⟩, ctx) := by
  unfold ThoughtChain.parseAnthropicSseEvent
  dsimp only
  rw [if_neg (by decide), if_neg (by decide), if_neg (by decide)]
  rw [hidx]
  simp only [hctx, hd, Option.getD_some, Option.some.injEq]
  by_cases hbt : bt = strOf "thinking" ∨ bt = strOf "redacted_thinking" ∨
      bt = strOf "thinking_summary"
  · rw [if_pos hbt, if_pos hbt]
  · rw [if_neg hbt, if_neg hbt]

/-- C7 witness: the spec's two routing vectors (`thinking` block at index 0,
`text` block at index 1). -/
theorem claim7_anthropic_routing_witness :
    (ThoughtChain.parseAnthropicSseEvent
        ⟨some (strOf "content_block_delta"),
         .ok (Json.obj [(strOf "index", Json.num 0),
           (strOf "delta", Json.obj [(strOf "thinking", Json.str (strOf "t"))])])⟩
        (ThoughtChain.createAnthropicSseContext.setType 0 (strOf "thinking")) =
      (if strOf "thinking" = strOf "thinking" ∨ strOf "thinking" = strOf "redacted_thinking" ∨
          strOf "thinking" = strOf "thinking_summary" then
        (⟨[], if ThoughtChain.anthThinkingDelta
                  (Json.obj [(strOf "thinking", Json.str (strOf "t"))]) ≠ [] then
                ThoughtChain.anthThinkingDelta
                  (Json.obj [(strOf "thinking", Json.str (strOf "t"))])
              else ThoughtChain.anthTextDelta
                  (Json.obj [(strOf "thinking", Json.str (strOf "t"))]), none⟩ :
          ThoughtChain.AnthDelta)
       else ⟨ThoughtChain.anthTextDelta (Json.obj [(strOf "thinking", Json.str (strOf "t"))]),
             ThoughtChain.anthThinkingDelta
               (Json.obj [(strOf "thinking", Json.str (strOf "t"))]), none⟩,
       ThoughtChain.createAnthropicSseContext.setType 0 (strOf "thinking"))) ∧
    (ThoughtChain.parseAnthropicSseEvent
        ⟨some (strOf "content_block_delta"),
         .ok (Json.obj [(strOf "index", Json.num 1),
           (strOf "delta", Json.obj [(strOf "text", Json.str (strOf "hi"))])])⟩
        ((ThoughtChain.createAnthropicSseContext.setType 0 (strOf "thinking")).setType 1
          (strOf "text")) =
      (if strOf "text" = strOf "thinking" ∨ strOf "text" = strOf "redacted_thinking" ∨
          strOf "text" = strOf "thinking_summary" then
        (⟨[], if ThoughtChain.anthThinkingDelta
                  (Json.obj [(strOf "text", Json.str (strOf "hi"))]) ≠ [] then
                ThoughtChain.anthThinkingDelta
                  (Json.obj [(strOf "text", Json.str (strOf "hi"))])
              else ThoughtChain.anthTextDelta
                  (Json.obj [(strOf "text", Json.str (strOf "hi"))]), none⟩ :
          ThoughtChain.AnthDelta)
       else ⟨ThoughtChain.anthTextDelta (Json.obj [(strOf "text", Json.str (strOf "hi"))]),
             ThoughtChain.anthThinkingDelta
               (Json.obj [(strOf "text", Json.str (strOf "hi"))]), none⟩,
       (ThoughtChain.createAnthropicSseContext.setType 0 (strOf "thinking")).setType 1
         (strOf "text"))) :=
  ⟨claim7_anthropic_routing _ 0 (strOf "thinking") _ _ rfl rfl rfl,
   claim7_anthropic_routing _ 1 (strOf "text") _ _ rfl rfl rfl⟩

theorem streamStep_removeCR (buf c : Str) :
    Sse.streamStep buf (Sse.removeCR c) = Sse.streamStep buf c := by
  unfold Sse.streamStep
  have h : Sse.removeCR (buf ++ Sse.removeCR c) = Sse.removeCR (buf ++ c) := by
    unfold Sse.removeCR
    rw [List.filter_append, List.filter_append]
    congr 1
    simp [List.filter_filter]
  rw [h]

theorem streamRunFrom_map (cs : List Str) : ∀ buf : Str,
    Sse.streamRunFrom buf (cs.map Sse.removeCR) = Sse.streamRunFrom buf cs := by
  induction cs with
  | nil => intro buf; rfl
  | cons c cs ih =>
    intro buf
    show (Sse.streamStep buf (Sse.removeCR c)).1 ++ _ = (Sse.streamStep buf c).1 ++ _
    rw [streamStep_removeCR]
    exact congrArg _ (ih _)

/-- C5 counterexample: on the lone-`\r` stream `"data: x\rdata: y\n\n"` the
reader deletes the `\r` (producing one data line `"xdata: y"`), whereas on
the spec's normalization (lone `\r` replaced by `\n`) it produces two data
lines; the two record sequences differ. -/
theorem claim5_counterexample :
    Sse.normalizeNewlinesSpec (strOf "data: x\rdata: y\n\n") =
      strOf "data: x\ndata: y\n\n" ∧
    Sse.streamRun [strOf "data: x\rdata: y\n\n"] ≠
      Sse.streamRun [Sse.normalizeNewlinesSpec (strOf "data: x\rdata: y\n\n")] :=
  ⟨by decide, by decide⟩

/-- C5 (amended): the SSE frame reader strips every `\r` from the byte stream
before frame splitting: for every input chunk sequence, the ordered record
sequence equals the one produced for the same stream with every `\r` removed
(so `\r\n` is treated as `\n`, but a lone `\r` is deleted rather than
converted to `\n`). -/
theorem claim5_reader_strips_cr (chunks : List Str) :
    Sse.streamRun chunks = Sse.streamRun (chunks.map Sse.removeCR) :=
  (streamRunFrom_map chunks []).symm

theorem strIndexOf_char_split (c : Char) (pre post : Str) (h : c ∉ pre) :
    strIndexOf (pre ++ c :: post) [c] = some pre.length := by
  induction pre with
  | nil =>
    show strIndexOf (c :: post) [c] = some 0
    unfold strIndexOf
    rw [if_pos (by simp [strLeads])]
  | cons a pre ih =>
    have hca : (c == a) = false := by
      have : c ≠ a := fun hh => h (by simp [hh])
      simpa using this
    have hcp : c ∉ pre := fun hh => h (by simp [hh])
    show strIndexOf (a :: (pre ++ c :: post)) [c] = some (pre.length + 1)
    unfold strIndexOf
    rw [if_neg (by simp [strLeads, hca])]
    dsimp only
    rw [ih hcp]
    rfl

theorem drop_append_cons (c : Char) (post : Str) : ∀ pre : Str,
    (pre ++ c :: post).drop (pre.length + 1) = post := by
  intro pre
  induction pre with
  | nil => rfl
  | cons a pre ih =>
    simp only [List.cons_append, List.length_cons, List.drop_succ_cons]
    exact ih

/-- C6 counterexample: the line `"data:  hi"` (two spaces after the colon)
yields the value `"hi"` — `trimStart` removes both spaces — while the claim
(at most one leading space stripped) predicts `" hi"`. -/
theorem claim6_counterexample :
    Sse.lineValue (strOf "data:  hi") = strOf "hi" ∧
    Sse.lineValueSpec (strOf "data:  hi") = strOf " hi" ∧
    Sse.lineValue (strOf "data:  hi") ≠ Sse.lineValueSpec (strOf "data:  hi") :=
  ⟨by decide, by decide, by decide⟩

/-- C6 (amended): for a line containing a `:`, the frame parser takes the
substring before the first `:`, trimmed, as the field name, and the substring
after the first `:` with ALL leading whitespace stripped (JS `trimStart`) as
the value — so a value beginning with two spaces loses both. -/
theorem claim6_field_value (pre post : Str) (h : ':' ∉ pre) :
    Sse.lineField (pre ++ ':' :: post) = Sse.trim pre ∧
    Sse.lineValue (pre ++ ':' :: post) = Sse.trimStart post := by
  have hidx : strIndexOf (pre ++ ':' :: post) (strOf ":") = some pre.length := by
    have hs : strOf ":" = [':'] := rfl
    rw [hs]
    exact strIndexOf_char_split ':' pre post h
  constructor
  · unfold Sse.lineField
    rw [hidx]
    dsimp only
    rw [List.take_left]
  · unfold Sse.lineValue
    rw [hidx]
    dsimp only
    rw [drop_append_cons]

/-- C6 witness: the amended field/value extraction applied to the line
`"data:  hi"`. -/
theorem claim6_field_value_witness :
    Sse.lineField (strOf "data" ++ ':' :: strOf "  hi") = Sse.trim (strOf "data") ∧
    Sse.lineValue (strOf "data" ++ ':' :: strOf "  hi") = Sse.trimStart (strOf "  hi") :=
  claim6_field_value (strOf "data") (strOf "  hi") (by decide)

namespace ThoughtChain

theorem dapp_empty_left (d : Delta) : dapp emptyDelta d = d := by
  cases d; rfl

theorem dapp_empty_right (d : Delta) : dapp d emptyDelta = d := by
  cases d; simp [dapp, emptyDelta]

theorem dapp_assoc (a b c : Delta) : dapp (dapp a b) c = dapp a (dapp b c) := by
  cases a; cases b; cases c; simp [dapp]

theorem appendOut_dapp (m : Bool) (d : Delta) (t : Str) :
    appendOut m d t = dapp d (appendOut m emptyDelta t) := by
  cases d
  by_cases ht : t = [] <;> cases m <;> simp [appendOut, ht, dapp, emptyDelta]

theorem appendOut_split (m : Bool) (x y : Str) :
    appendOut m emptyDelta (x ++ y) =
      dapp (appendOut m emptyDelta x) (appendOut m emptyDelta y) := by
  by_cases hx : x = [] <;> by_cases hy : y = [] <;> cases m <;>
    simp [appendOut, hx, hy, dapp, emptyDelta]

theorem deltaOfEvents_acc (evts : List OutEvent) : ∀ d : Delta,
    evts.foldl
      (fun d e =>
        match e with
        | .piece th t => appendOut th d t
        | .tagTok _ => d) d = dapp d (deltaOfEvents evts) := by
  induction evts with
  | nil => intro d; simp [deltaOfEvents, dapp_empty_right]
  | cons e evts ih =>
    intro d
    cases e with
    | piece th t =>
      show List.foldl _ (appendOut th d t) evts = _
      rw [ih (appendOut th d t), appendOut_dapp]
      have hde : deltaOfEvents (OutEvent.piece th t :: evts) =
          dapp (appendOut th emptyDelta t) (deltaOfEvents evts) := by
        show List.foldl _ (appendOut th emptyDelta t) evts = _
        exact ih (appendOut th emptyDelta t)
      rw [hde, dapp_assoc]
    | tagTok c =>
      show List.foldl _ d evts = _
      rw [ih d]
      have : deltaOfEvents (OutEvent.tagTok c :: evts) = deltaOfEvents evts := rfl
      rw [this]

theorem deltaOfEvents_append (xs ys : List OutEvent) :
    deltaOfEvents (xs ++ ys) = dapp (deltaOfEvents xs) (deltaOfEvents ys) := by
  show List.foldl _ emptyDelta (xs ++ ys) = _
  rw [List.foldl_append]
  exact deltaOfEvents_acc ys _

theorem deltaOfEvents_appendEvt (m : Bool) (t : Str) :
    deltaOfEvents (appendEvt m t) = appendOut m emptyDelta t := by
  unfold appendEvt
  by_cases ht : t = []
  · simp [ht, deltaOfEvents, appendOut]
  · simp only [ht, if_neg]
    show deltaOfEvents [OutEvent.piece m t] = _
    rfl

theorem deltaOfEvents_cons_tag (c : Str) (evts : List OutEvent) :
    deltaOfEvents (.tagTok c :: evts) = deltaOfEvents evts := rfl

theorem tagLoopF_trace (cfg : SplitterCfg) (fuel : Nat) : ∀ (B : Str) (m : Bool) (out : Delta),
    tagLoopF cfg fuel out B m =
      (dapp out (deltaOfEvents (tagLoopFT cfg fuel B m).1), (tagLoopFT cfg fuel B m).2) := by
  induction fuel with
  | zero =>
    intro B m out
    show (out, B, m) = _
    simp [tagLoopFT, deltaOfEvents, dapp_empty_right]
  | succ f ih =>
    intro B m out
    show tagLoopF cfg (f + 1) out B m = _
    rcases hfind : findNextTag B cfg.openTags cfg.closeTags with _ | hit
    · simp [tagLoopF, tagLoopFT, hfind, deltaOfEvents, dapp_empty_right]
    · have hL : tagLoopF cfg (f + 1) out B m =
          tagLoopF cfg f (appendOut m out (B.take hit.index))
            (B.drop (hit.index + hit.tag.length)) (hit.kind == TagKind.openTag) := by
        simp [tagLoopF, hfind]
      have hT : tagLoopFT cfg (f + 1) B m =
          (appendEvt m (B.take hit.index) ++
            OutEvent.tagTok ((B.drop hit.index).take hit.tag.length) ::
              (tagLoopFT cfg f (B.drop (hit.index + hit.tag.length))
                (hit.kind == TagKind.openTag)).1,
           (tagLoopFT cfg f (B.drop (hit.index + hit.tag.length))
             (hit.kind == TagKind.openTag)).2) := by
        simp [tagLoopFT, hfind]
      rw [hL, hT, ih]
      rw [deltaOfEvents_append, deltaOfEvents_cons_tag, deltaOfEvents_appendEvt]
      rw [appendOut_dapp, dapp_assoc]

theorem tagLoop_trace (cfg : SplitterCfg) (B : Str) (m : Bool) (out : Delta) :
    tagLoop cfg out B m =
      (dapp out (deltaOfEvents (tagLoopT cfg B m).1), (tagLoopT cfg B m).2) :=
  tagLoopF_trace cfg (B.length + 1) B m out

theorem pushStr_trace (cfg : SplitterCfg) (st : SplitterState) (c : Str) :
    pushStr cfg st c = (deltaOfEvents (pushStrT cfg st c).1, (pushStrT cfg st c).2) := by
  unfold pushStr pushStrT
  by_cases hc : c = []
  · simp [hc, deltaOfEvents, emptyDelta]
  · simp only [hc, if_neg, ite_false]
    rw [tagLoop_trace, dapp_empty_left]
    dsimp only
    by_cases hkeep : 0 < calcKeepTailLen cfg (tagLoopT cfg (st.buffer ++ c) st.inThinking).2.1
    · rw [if_pos hkeep, if_pos hkeep]
      rw [deltaOfEvents_append, deltaOfEvents_appendEvt, appendOut_dapp]
    · rw [if_neg hkeep, if_neg hkeep]
      by_cases hbuf : (tagLoopT cfg (st.buffer ++ c) st.inThinking).2.1 = []
      · rw [if_neg (by simp [hbuf]), if_neg (by simp [hbuf])]
      · rw [if_pos hbuf, if_pos hbuf]
        rw [deltaOfEvents_append, deltaOfEvents_appendEvt, appendOut_dapp]

theorem eventsText_append (xs ys : List OutEvent) :
    eventsText (xs ++ ys) = eventsText xs ++ eventsText ys := by
  simp [eventsText]

theorem eventsText_appendEvt (m : Bool) (t : Str) : eventsText (appendEvt m t) = t := by
  unfold appendEvt
  by_cases ht : t = [] <;> simp [ht, eventsText, OutEvent.text]

theorem eventsText_cons_tag (c : Str) (T : List OutEvent) :
    eventsText (.tagTok c :: T) = c ++ eventsText T := by
  simp [eventsText, OutEvent.text]

theorem tagLoopFT_recon (cfg : SplitterCfg) (fuel : Nat) : ∀ (B : Str) (m : Bool),
    eventsText (tagLoopFT cfg fuel B m).1 ++ (tagLoopFT cfg fuel B m).2.1 = B := by
  induction fuel with
  | zero =>
    intro B m
    show eventsText [] ++ B = B
    simp [eventsText]
  | succ f ih =>
    intro B m
    rcases hfind : findNextTag B cfg.openTags cfg.closeTags with _ | hit
    · show eventsText (tagLoopFT cfg (f + 1) B m).1 ++ _ = B
      simp [tagLoopFT, hfind, eventsText]
    · have hT : tagLoopFT cfg (f + 1) B m =
          (appendEvt m (B.take hit.index) ++
            OutEvent.tagTok ((B.drop hit.index).take hit.tag.length) ::
              (tagLoopFT cfg f (B.drop (hit.index + hit.tag.length))
                (hit.kind == TagKind.openTag)).1,
           (tagLoopFT cfg f (B.drop (hit.index + hit.tag.length))
             (hit.kind == TagKind.openTag)).2) := by
        simp [tagLoopFT, hfind]
      rw [hT]
      dsimp only
      rw [eventsText_append, eventsText_appendEvt, eventsText_cons_tag]
      rw [List.append_assoc, List.append_assoc]
      rw [ih (B.drop (hit.index + hit.tag.length)) (hit.kind == TagKind.openTag)]
      have hdd : B.drop (hit.index + hit.tag.length) =
          (B.drop hit.index).drop hit.tag.length := by
        simp [List.drop_drop, Nat.add_comm]
      rw [hdd, List.take_append_drop, List.take_append_drop]

theorem tagLoopT_recon (cfg : SplitterCfg) (B : Str) (m : Bool) :
    eventsText (tagLoopT cfg B m).1 ++ (tagLoopT cfg B m).2.1 = B :=
  tagLoopFT_recon cfg (B.length + 1) B m

theorem pushStrT_recon (cfg : SplitterCfg) (st : SplitterState) (c : Str) :
    eventsText (pushStrT cfg st c).1 ++ (pushStrT cfg st c).2.buffer = st.buffer ++ c := by
  unfold pushStrT
  by_cases hc : c = []
  · simp [hc, eventsText]
  · simp only [hc, if_neg, ite_false]
    have hrec := tagLoopT_recon cfg (st.buffer ++ c) st.inThinking
    by_cases hkeep : 0 < calcKeepTailLen cfg (tagLoopT cfg (st.buffer ++ c) st.inThinking).2.1
    · rw [if_pos hkeep]
      dsimp only
      rw [eventsText_append, eventsText_appendEvt]
      rw [List.append_assoc, List.take_append_drop]
      exact hrec
    · rw [if_neg hkeep]
      by_cases hbuf : (tagLoopT cfg (st.buffer ++ c) st.inThinking).2.1 = []
      · rw [if_neg (by simp [hbuf])]
        dsimp only
        exact hrec
      · rw [if_pos hbuf]
        dsimp only
        rw [eventsText_append, eventsText_appendEvt, List.append_nil]
        exact hrec

theorem runPushesT_recon (cfg : SplitterCfg) (cs : List Str) : ∀ st : SplitterState,
    eventsText ((runPushesT cfg st cs).1.flatten) ++ (runPushesT cfg st cs).2.buffer =
      st.buffer ++ cs.flatten := by
  induction cs with
  | nil =>
    intro st
    show eventsText [].flatten ++ st.buffer = st.buffer ++ [].flatten
    simp [eventsText]
  | cons c cs ih =>
    intro st
    show eventsText (((pushStrT cfg st c).1 :: (runPushesT cfg (pushStrT cfg st c).2 cs).1).flatten) ++
        (runPushesT cfg (pushStrT cfg st c).2 cs).2.buffer = st.buffer ++ (c :: cs).flatten
    rw [List.flatten_cons, eventsText_append, List.append_assoc]
    rw [ih (pushStrT cfg st c).2]
    rw [← List.append_assoc]
    rw [pushStrT_recon]
    simp

theorem runPushes_trace (cfg : SplitterCfg) (cs : List Str) : ∀ st : SplitterState,
    runPushes cfg st cs =
      ((runPushesT cfg st cs).1.map deltaOfEvents, (runPushesT cfg st cs).2) := by
  induction cs with
  | nil => intro st; rfl
  | cons c cs ih =>
    intro st
    show (let r := pushStr cfg st c; let rest := runPushes cfg r.2 cs; (r.1 :: rest.1, rest.2)) = _
    rw [pushStr_trace]
    dsimp only
    rw [ih (pushStrT cfg st c).2]
    rfl

theorem flush_trace (st : SplitterState) :
    flush st = (deltaOfEvents (flushT st).1, (flushT st).2) := by
  unfold flush flushT
  rw [deltaOfEvents_appendEvt]

end ThoughtChain

/-- No-loss invariant of the splitter over the character-wise lowercasing
model: for every sequence of `push` calls followed by one terminal `flush`,
the emissions form an ordered trace whose text — content pieces, thinking
pieces, and the exact consumed tag substrings, in emission order —
concatenates to exactly the concatenated input, and the actual `push`/`flush`
return values are the per-channel collapses of that trace. -/
theorem asciiNoLoss (cs : List Str) :
    ThoughtChain.eventsText
        ((ThoughtChain.runPushesT ThoughtChain.dCfg ThoughtChain.initState cs).1.flatten ++
          (ThoughtChain.flushT
            (ThoughtChain.runPushesT ThoughtChain.dCfg ThoughtChain.initState cs).2).1) =
      cs.flatten ∧
    (ThoughtChain.runPushes ThoughtChain.dCfg ThoughtChain.initState cs).1 =
      ((ThoughtChain.runPushesT ThoughtChain.dCfg ThoughtChain.initState cs).1).map
        ThoughtChain.deltaOfEvents ∧
    (ThoughtChain.runPushes ThoughtChain.dCfg ThoughtChain.initState cs).2 =
      (ThoughtChain.runPushesT ThoughtChain.dCfg ThoughtChain.initState cs).2 ∧
    (ThoughtChain.flush
        (ThoughtChain.runPushes ThoughtChain.dCfg ThoughtChain.initState cs).2).1 =
      ThoughtChain.deltaOfEvents
        (ThoughtChain.flushT
          (ThoughtChain.runPushesT ThoughtChain.dCfg ThoughtChain.initState cs).2).1 := by
  refine ⟨?_, ?_, ?_, ?_⟩
  · rw [ThoughtChain.eventsText_append]
    have hrec := ThoughtChain.runPushesT_recon ThoughtChain.dCfg cs ThoughtChain.initState
    have hfl : ThoughtChain.eventsText
        (ThoughtChain.flushT
          (ThoughtChain.runPushesT ThoughtChain.dCfg ThoughtChain.initState cs).2).1 =
        (ThoughtChain.runPushesT ThoughtChain.dCfg ThoughtChain.initState cs).2.buffer :=
      ThoughtChain.eventsText_appendEvt _ _
    rw [hfl]
    simpa using hrec
  · rw [ThoughtChain.runPushes_trace]
  · rw [ThoughtChain.runPushes_trace]
  · rw [ThoughtChain.runPushes_trace, ThoughtChain.flush_trace]

theorem strLeads_exists (p : Str) : ∀ s : Str, strLeads p s = true ↔ ∃ r, s = p ++ r := by
  induction p with
  | nil =>
    intro s
    simp [strLeads]
  | cons a p ih =>
    intro s
    cases s with
    | nil =>
      simp only [strLeads]
      constructor
      · intro h; cases h
      · rintro ⟨r, h⟩; cases h
    | cons b s =>
      simp only [strLeads, Bool.and_eq_true, beq_iff_eq]
      rw [ih s]
      constructor
      · rintro ⟨rfl, r, rfl⟩; exact ⟨r, rfl⟩
      · rintro ⟨r, h⟩
        injection h with h1 h2
        exact ⟨h1.symm, r, h2⟩

theorem strLeads_length (p s : Str) (h : strLeads p s = true) : p.length ≤ s.length := by
  obtain ⟨r, rfl⟩ := (strLeads_exists p s).1 h
  simp

theorem strLeads_app (p s u : Str) (h : strLeads p s = true) : strLeads p (s ++ u) = true := by
  obtain ⟨r, rfl⟩ := (strLeads_exists p s).1 h
  exact (strLeads_exists p _).2 ⟨r ++ u, by simp⟩

theorem strLeads_take (p s : Str) :
    strLeads p s = true ↔ p.length ≤ s.length ∧ s.take p.length = p := by
  constructor
  · intro h
    obtain ⟨r, rfl⟩ := (strLeads_exists p s).1 h
    constructor
    · simp
    · exact List.take_left p r
  · rintro ⟨hlen, htake⟩
    refine (strLeads_exists p s).2 ⟨s.drop p.length, ?_⟩
    conv_lhs => rw [← List.take_append_drop p.length s]
    rw [htake]

theorem strLeads_trans (p q s : Str) (h1 : strLeads p q = true) (h2 : strLeads q s = true) :
    strLeads p s = true := by
  obtain ⟨r1, rfl⟩ := (strLeads_exists p q).1 h1
  obtain ⟨r2, rfl⟩ := (strLeads_exists _ s).1 h2
  exact (strLeads_exists p _).2 ⟨r1 ++ r2, by simp⟩

theorem strLeads_mutual (p q s : Str) (hp : strLeads p s = true) (hq : strLeads q s = true)
    (hlen : p.length ≤ q.length) : strLeads p q = true := by
  obtain ⟨hpl, hpt⟩ := (strLeads_take p s).1 hp
  obtain ⟨hql, hqt⟩ := (strLeads_take q s).1 hq
  refine (strLeads_take p q).2 ⟨hlen, ?_⟩
  rw [← hqt, List.take_take, Nat.min_eq_left hlen, hpt]

theorem strLeads_nil_of_ne (p : Str) (h : p ≠ []) : strLeads p [] = false := by
  cases p with
  | nil => exact absurd rfl h
  | cons a p => rfl

theorem strLeads_confine (p x y : Str) (h : strLeads p (x ++ y) = true)
    (hlen : p.length ≤ x.length) : strLeads p x = true := by
  obtain ⟨hl, ht⟩ := (strLeads_take p (x ++ y)).1 h
  refine (strLeads_take p x).2 ⟨hlen, ?_⟩
  rw [← List.take_append_of_le_length hlen, ht]

theorem strLeads_of_app_left (u v t : Str) (h : strLeads (u ++ v) t = true) :
    strLeads u t = true := by
  obtain ⟨r, rfl⟩ := (strLeads_exists (u ++ v) t).1 h
  exact (strLeads_exists u _).2 ⟨v ++ r, by simp⟩

theorem strIndexOf_some_spec (pat : Str) : ∀ (text : Str) (i : Nat),
    strIndexOf text pat = some i →
    strLeads pat (text.drop i) = true ∧ ∀ j, j < i → strLeads pat (text.drop j) = false := by
  intro text
  induction text with
  | nil =>
    intro i h
    unfold strIndexOf at h
    by_cases hl : strLeads pat [] = true
    · rw [if_pos hl] at h
      cases h
      exact ⟨hl, fun j hj => absurd hj (Nat.not_lt_zero j)⟩
    · rw [if_neg hl] at h
      cases h
  | cons c rest ih =>
    intro i h
    unfold strIndexOf at h
    by_cases hl : strLeads pat (c :: rest) = true
    · rw [if_pos hl] at h
      cases h
      exact ⟨hl, fun j hj => absurd hj (Nat.not_lt_zero j)⟩
    · rw [if_neg hl] at h
      simp only [Option.map_eq_some'] at h
      obtain ⟨i', hi', rfl⟩ := h
      obtain ⟨hocc, hmin⟩ := ih i' hi'
      refine ⟨hocc, ?_⟩
      intro j hj
      cases j with
      | zero => simpa using Bool.eq_false_iff.2 hl
      | succ j => exact hmin j (Nat.lt_of_succ_lt_succ hj)

theorem strIndexOf_none_spec (pat : Str) : ∀ text : Str,
    strIndexOf text pat = none → ∀ j, strLeads pat (text.drop j) = false := by
  intro text
  induction text with
  | nil =>
    intro h j
    unfold strIndexOf at h
    by_cases hl : strLeads pat [] = true
    · rw [if_pos hl] at h; cases h
    · simpa using Bool.eq_false_iff.2 (by simpa using hl)
  | cons c rest ih =>
    intro h j
    unfold strIndexOf at h
    by_cases hl : strLeads pat (c :: rest) = true
    · rw [if_pos hl] at h; cases h
    · rw [if_neg hl] at h
      simp only [Option.map_eq_none'] at h
      cases j with
      | zero => simpa using Bool.eq_false_iff.2 hl
      | succ j => exact ih h j

theorem strIndexOf_some_of_leads (text pat : Str) (j : Nat)
    (h : strLeads pat (text.drop j) = true) :
    ∃ i, strIndexOf text pat = some i ∧ i ≤ j := by
  cases hio : strIndexOf text pat with
  | none => exact absurd h (by simp [strIndexOf_none_spec pat text hio j])
  | some i =>
    refine ⟨i, rfl, ?_⟩
    by_contra hij
    have := (strIndexOf_some_spec pat text i hio).2 j (Nat.lt_of_not_le hij)
    rw [h] at this
    cases this

theorem strIndexOf_bound (text pat : Str) (i : Nat) (h : strIndexOf text pat = some i)
    (hp : pat ≠ []) : i + pat.length ≤ text.length := by
  have hocc := (strIndexOf_some_spec pat text i h).1
  have hlen := strLeads_length _ _ hocc
  rw [List.length_drop] at hlen
  rcases Nat.lt_or_ge i text.length with hlt | hge
  · omega
  · exfalso
    have : text.drop i = [] := List.drop_eq_nil_of_le hge
    rw [this] at hocc
    rw [strLeads_nil_of_ne pat hp] at hocc
    cases hocc

namespace ThoughtChain

theorem scanTags_spec (lower : Str) (kind : TagKind) :
    ∀ (tags : List Str) (best : Option TagHit) (pairs0 : List (Str × TagKind)),
      BestSpec lower pairs0 best →
      BestSpec lower (pairs0 ++ tags.map (fun t => (t, kind)))
        (scanTags lower kind tags best) := by
  intro tags
  induction tags with
  | nil =>
    intro best pairs0 h
    simpa using h
  | cons tag rest ih =>
    intro best pairs0 h
    have hassoc : pairs0 ++ (List.map (fun t => (t, kind)) (tag :: rest)) =
        (pairs0 ++ [(tag, kind)]) ++ rest.map (fun t => (t, kind)) := by simp
    rw [hassoc]
    show BestSpec lower _ (scanTags lower kind rest _)
    apply ih
    rcases hio : strIndexOf lower tag with _ | idx
    · cases best with
      | none =>
        intro p hp
        rcases List.mem_append.1 hp with hp | hp
        · exact h p hp
        · rw [List.mem_singleton.1 hp]; exact hio
      | some b =>
        obtain ⟨hmem, hidx, hmin⟩ := h
        refine ⟨List.mem_append_left _ hmem, hidx, ?_⟩
        intro p hp j hj
        rcases List.mem_append.1 hp with hp | hp
        · exact hmin p hp j hj
        · rw [List.mem_singleton.1 hp] at hj
          rw [hio] at hj
          cases hj
    · cases best with
      | none =>
        refine ⟨List.mem_append_right _ (List.mem_singleton.2 rfl), hio, ?_⟩
        intro p hp j hj
        rcases List.mem_append.1 hp with hp | hp
        · rw [h p hp] at hj; cases hj
        · rw [List.mem_singleton.1 hp] at hj
          rw [hio] at hj
          cases hj
          exact Nat.le_refl idx
      | some b =>
        obtain ⟨hmem, hidx, hmin⟩ := h
        dsimp only
        by_cases hlt : idx < b.index
        · rw [if_pos hlt]
          refine ⟨List.mem_append_right _ (List.mem_singleton.2 rfl), hio, ?_⟩
          intro p hp j hj
          rcases List.mem_append.1 hp with hp | hp
          · exact Nat.le_trans (Nat.le_of_lt hlt) (hmin p hp j hj)
          · rw [List.mem_singleton.1 hp] at hj
            rw [hio] at hj
            cases hj
            exact Nat.le_refl idx
        · rw [if_neg hlt]
          refine ⟨List.mem_append_left _ hmem, hidx, ?_⟩
          intro p hp j hj
          rcases List.mem_append.1 hp with hp | hp
          · exact hmin p hp j hj
          · rw [List.mem_singleton.1 hp] at hj
            rw [hio] at hj
            cases hj
            exact Nat.le_of_not_lt hlt

theorem findNextTag_spec (cfg : SplitterCfg) (text : Str) :
    BestSpec (lowerStr text) (TagsOf cfg) (findNextTag text cfg.openTags cfg.closeTags) := by
  have h0 : BestSpec (lowerStr text) [] none := by
    intro p hp
    cases hp
  have h1 := scanTags_spec (lowerStr text) .openTag cfg.openTags none [] h0
  rw [List.nil_append] at h1
  have h2 := scanTags_spec (lowerStr text) .closeTag cfg.closeTags _ _ h1
  exact h2

theorem findNextTag_none_occ (cfg : SplitterCfg) (text : Str)
    (h : findNextTag text cfg.openTags cfg.closeTags = none) :
    ∀ p ∈ TagsOf cfg, ∀ j, ¬ OccAt p.1 j text := by
  have hs := findNextTag_spec cfg text
  rw [h] at hs
  intro p hp j hocc
  have := strIndexOf_none_spec p.1 (lowerStr text) (hs p hp) j
  rw [hocc] at this
  cases this

theorem findNextTag_some_occ (cfg : SplitterCfg) (text : Str) (hit : TagHit)
    (hfind : findNextTag text cfg.openTags cfg.closeTags = some hit) :
    (hit.tag, hit.kind) ∈ TagsOf cfg ∧ OccAt hit.tag hit.index text ∧
      ∀ p ∈ TagsOf cfg, ∀ j, OccAt p.1 j text → hit.index ≤ j := by
  have hs := findNextTag_spec cfg text
  rw [hfind] at hs
  obtain ⟨hmem, hidx, hmin⟩ := hs
  refine ⟨hmem, (strIndexOf_some_spec _ _ _ hidx).1, ?_⟩
  intro p hp j hocc
  obtain ⟨i, hi, hij⟩ := strIndexOf_some_of_leads (lowerStr text) p.1 j hocc
  exact Nat.le_trans (hmin p hp i hi) hij

theorem mem_dTags (p : Str × TagKind) (hp : p ∈ TagsOf dCfg) :
    p = (strOf "<think>", .openTag) ∨ p = (strOf "<analysis>", .openTag) ∨
    p = (strOf "</think>", .closeTag) ∨ p = (strOf "</analysis>", .closeTag) := by
  simpa [TagsOf, dCfg, DEFAULT_OPEN_TAGS, DEFAULT_CLOSE_TAGS] using hp

theorem dTags_ne_nil (p : Str × TagKind) (hp : p ∈ TagsOf dCfg) : p.1 ≠ [] := by
  rcases mem_dTags p hp with rfl | rfl | rfl | rfl <;> decide

theorem dTags_len (p : Str × TagKind) (hp : p ∈ TagsOf dCfg) : p.1.length ≤ 11 := by
  rcases mem_dTags p hp with rfl | rfl | rfl | rfl <;> decide

theorem dMaxTagLen : dCfg.maxTagLen = 11 := by decide

theorem dTags_mutual (p : Str × TagKind) (hp : p ∈ TagsOf dCfg)
    (q : Str × TagKind) (hq : q ∈ TagsOf dCfg)
    (hl : strLeads p.1 q.1 = true) : p = q := by
  rcases mem_dTags p hp with rfl | rfl | rfl | rfl <;>
    rcases mem_dTags q hq with rfl | rfl | rfl | rfl <;> revert hl <;> decide

theorem dTags_not_inside (p : Str × TagKind) (hp : p ∈ TagsOf dCfg)
    (q : Str × TagKind) (hq : q ∈ TagsOf dCfg) (o : Nat) (ho : 1 ≤ o) :
    strLeads p.1 (q.1.drop o) = false := by
  by_cases ho2 : o ≤ 11
  · rcases mem_dTags p hp with rfl | rfl | rfl | rfl <;>
      rcases mem_dTags q hq with rfl | rfl | rfl | rfl <;>
      interval_cases o <;> decide
  · have hq11 : q.1.length ≤ 11 := dTags_len q hq
    rw [List.drop_eq_nil_of_le (by omega)]
    exact strLeads_nil_of_ne _ (dTags_ne_nil p hp)

theorem lowerStr_append (B b : Str) : lowerStr (B ++ b) = lowerStr B ++ lowerStr b := by
  simp [lowerStr]

theorem lowerStr_drop (B : Str) (n : Nat) : lowerStr (B.drop n) = (lowerStr B).drop n := by
  simp [lowerStr, List.map_drop]

theorem lowerStr_length (B : Str) : (lowerStr B).length = B.length := by
  simp [lowerStr]

theorem occAt_bound (t : Str) (i : Nat) (B : Str) (h : OccAt t i B) (ht : t ≠ []) :
    i + t.length ≤ B.length := by
  unfold OccAt at h
  have hlen := strLeads_length _ _ h
  rw [List.length_drop, lowerStr_length] at hlen
  rcases Nat.lt_or_ge i B.length with hlt | hge
  · omega
  · exfalso
    have hnil : (lowerStr B).drop i = [] :=
      List.drop_eq_nil_of_le (by rw [lowerStr_length]; exact hge)
    rw [hnil, strLeads_nil_of_ne t ht] at h
    cases h

theorem occAt_app (t : Str) (i : Nat) (B b : Str) (h : OccAt t i B) (ht : t ≠ []) :
    OccAt t i (B ++ b) := by
  have hb := occAt_bound t i B h ht
  unfold OccAt at h ⊢
  rw [lowerStr_append, List.drop_append_of_le_length (by rw [lowerStr_length]; omega)]
  exact strLeads_app _ _ _ h

theorem occAt_confine (t : Str) (i : Nat) (B b : Str) (h : OccAt t i (B ++ b))
    (hfit : i + t.length ≤ B.length) : OccAt t i B := by
  unfold OccAt at h ⊢
  rw [lowerStr_append, List.drop_append_of_le_length (by rw [lowerStr_length]; omega)] at h
  refine strLeads_confine _ _ _ h ?_
  rw [List.length_drop, lowerStr_length]
  omega

theorem occAt_shift (t : Str) (c j : Nat) (B : Str) :
    OccAt t (c + j) B ↔ OccAt t j (B.drop c) := by
  unfold OccAt
  rw [lowerStr_drop, List.drop_drop]

end ThoughtChain

namespace ThoughtChain

theorem noEarlier_app (B b : Str) (hit : TagHit)
    (hfind : findNextTag B dCfg.openTags dCfg.closeTags = some hit) :
    ∀ p ∈ TagsOf dCfg, ∀ j, OccAt p.1 j (B ++ b) → hit.index ≤ j := by
  intro p hp j hocc
  by_contra hji
  have hji' : j < hit.index := Nat.lt_of_not_le (fun hc => hji (Nat.le_of_lt_succ (Nat.lt_succ_of_le hc)))
  obtain ⟨hmem, hocch, hmin⟩ := findNextTag_some_occ dCfg B hit hfind
  have hpne : p.1 ≠ [] := dTags_ne_nil p hp
  have hhne : hit.tag ≠ [] := dTags_ne_nil _ hmem
  have hhpos : 0 < hit.tag.length := List.length_pos.2 hhne
  have hppos : 0 < p.1.length := List.length_pos.2 hpne
  have hhfit : hit.index + hit.tag.length ≤ B.length := occAt_bound _ _ _ hocch hhne
  rcases le_or_lt (j + p.1.length) B.length with hfit | hstr
  · have := hmin p hp j (occAt_confine _ _ _ _ hocc hfit)
    omega
  · have hocch2 := occAt_app _ _ B b hocch hhne
    unfold OccAt at hocc hocch2
    obtain ⟨r, hr⟩ := (strLeads_exists _ _).1 hocc
    obtain ⟨r2, hr2⟩ := (strLeads_exists _ _).1 hocch2
    have hdd : (lowerStr (B ++ b)).drop hit.index =
        ((lowerStr (B ++ b)).drop j).drop (hit.index - j) := by
      rw [List.drop_drop]
      congr 1
      omega
    rw [hdd, hr] at hr2
    have hop : hit.index - j ≤ p.1.length := by omega
    rw [List.drop_append_of_le_length hop] at hr2
    have hlead : strLeads hit.tag (p.1.drop (hit.index - j)) = true := by
      refine strLeads_confine _ _ r ((strLeads_exists _ _).2 ⟨r2, hr2⟩) ?_
      rw [List.length_drop]
      omega
    have hfalse := dTags_not_inside (hit.tag, hit.kind) hmem p hp (hit.index - j) (by omega)
    rw [hlead] at hfalse
    cases hfalse

theorem findNextTag_app (B b : Str) (hit : TagHit)
    (hfind : findNextTag B dCfg.openTags dCfg.closeTags = some hit) :
    findNextTag (B ++ b) dCfg.openTags dCfg.closeTags = some hit := by
  obtain ⟨hmem, hocc, hmin⟩ := findNextTag_some_occ dCfg B hit hfind
  have hne : hit.tag ≠ [] := dTags_ne_nil _ hmem
  have hocc2 := occAt_app _ _ B b hocc hne
  rcases hfind2 : findNextTag (B ++ b) dCfg.openTags dCfg.closeTags with _ | hit2
  · exact absurd hocc2 (findNextTag_none_occ dCfg (B ++ b) hfind2 _ hmem _)
  · obtain ⟨hmem2, hocc2', hmin2⟩ := findNextTag_some_occ dCfg (B ++ b) hit2 hfind2
    have h1 : hit2.index ≤ hit.index := hmin2 _ hmem _ hocc2
    have h2 : hit.index ≤ hit2.index := noEarlier_app B b hit hfind _ hmem2 _ hocc2'
    have hidx : hit2.index = hit.index := Nat.le_antisymm h1 h2
    unfold OccAt at hocc2 hocc2'
    rw [hidx] at hocc2'
    have hEq : (hit2.tag, hit2.kind) = (hit.tag, hit.kind) := by
      rcases le_or_lt hit2.tag.length hit.tag.length with hl | hl
      · exact dTags_mutual _ hmem2 _ hmem (strLeads_mutual _ _ _ hocc2' hocc2 hl)
      · exact (dTags_mutual _ hmem _ hmem2
          (strLeads_mutual _ _ _ hocc2 hocc2' (Nat.le_of_lt hl))).symm
    have htag : hit2.tag = hit.tag := congrArg Prod.fst hEq
    have hkind : hit2.kind = hit.kind := congrArg Prod.snd hEq
    congr 1
    cases hit2
    cases hit
    simp only [TagHit.mk.injEq]
    exact ⟨hidx, htag, hkind⟩

theorem keepLoop_le (tags : List Str) (lower : Str) : ∀ n, keepLoop tags lower n ≤ n := by
  intro n
  induction n with
  | zero => exact Nat.le_refl 0
  | succ n ih =>
    unfold keepLoop
    by_cases h : isTagPre tags (lastN (n + 1) lower) = true
    · rw [if_pos h]
    · rw [if_neg h]
      exact Nat.le_trans ih (Nat.le_succ n)

theorem keepLoop_pre (tags : List Str) (lower : Str) : ∀ n,
    keepLoop tags lower n = 0 ∨
      isTagPre tags (lastN (keepLoop tags lower n) lower) = true := by
  intro n
  induction n with
  | zero => exact Or.inl rfl
  | succ n ih =>
    unfold keepLoop
    by_cases h : isTagPre tags (lastN (n + 1) lower) = true
    · rw [if_pos h]
      exact Or.inr h
    · rw [if_neg h]
      exact ih

theorem keepLoop_max (tags : List Str) (lower : Str) : ∀ n m,
    keepLoop tags lower n < m → m ≤ n → isTagPre tags (lastN m lower) = false := by
  intro n
  induction n with
  | zero =>
    intro m h1 h2
    omega
  | succ n ih =>
    intro m h1 h2
    by_cases h : isTagPre tags (lastN (n + 1) lower) = true
    · rw [keepLoop, if_pos h] at h1
      omega
    · rw [keepLoop, if_neg h] at h1
      rcases Nat.lt_or_ge m (n + 1) with hm | hm
      · exact ih m h1 (by omega)
      · have : m = n + 1 := by omega
        rw [this]
        exact Bool.eq_false_iff.2 h

theorem calcKeep_le (cfg : SplitterCfg) (B : Str) :
    calcKeepTailLen cfg B ≤ Nat.min (cfg.maxTagLen - 1) B.length :=
  keepLoop_le _ _ _

theorem calcKeep_pre (cfg : SplitterCfg) (B : Str) :
    calcKeepTailLen cfg B = 0 ∨
      isTagPre cfg.allTags (lastN (calcKeepTailLen cfg B) (lowerStr B)) = true :=
  keepLoop_pre _ _ _

theorem calcKeep_max (cfg : SplitterCfg) (B : Str) (m : Nat)
    (h1 : calcKeepTailLen cfg B < m) (h2 : m ≤ Nat.min (cfg.maxTagLen - 1) B.length) :
    isTagPre cfg.allTags (lastN m (lowerStr B)) = false :=
  keepLoop_max _ _ _ m h1 h2

theorem isTagPre_false_all (tags : List Str) (s : Str) (h : isTagPre tags s = false)
    (t : Str) (ht : t ∈ tags) : strLeads s t = false := by
  unfold isTagPre at h
  rw [List.any_eq_false] at h
  exact Bool.eq_false_iff.2 (h t ht)

theorem isTagPre_of (tags : List Str) (s t : Str) (ht : t ∈ tags)
    (h : strLeads s t = true) : isTagPre tags s = true := by
  unfold isTagPre
  rw [List.any_eq_true]
  exact ⟨t, ht, h⟩

theorem TagsOf_fst (cfg : SplitterCfg) (p : Str × TagKind) (hp : p ∈ TagsOf cfg) :
    p.1 ∈ cfg.allTags := by
  unfold TagsOf at hp
  unfold SplitterCfg.allTags
  rcases List.mem_append.1 hp with h | h <;>
    obtain ⟨t, ht, hte⟩ := List.mem_map.1 h
  · exact List.mem_append_left _ (by rw [← hte]; exact ht)
  · exact List.mem_append_right _ (by rw [← hte]; exact ht)

theorem allTags_pair (cfg : SplitterCfg) (t : Str) (ht : t ∈ cfg.allTags) :
    ∃ k, (t, k) ∈ TagsOf cfg := by
  unfold SplitterCfg.allTags at ht
  unfold TagsOf
  rcases List.mem_append.1 ht with h | h
  · exact ⟨.openTag, List.mem_append_left _ (List.mem_map.2 ⟨t, h, rfl⟩)⟩
  · exact ⟨.closeTag, List.mem_append_right _ (List.mem_map.2 ⟨t, h, rfl⟩)⟩

end ThoughtChain

namespace ThoughtChain

theorem isTagPre_iff (tags : List Str) (s : Str) :
    isTagPre tags s = true ↔ ∃ t ∈ tags, strLeads s t = true := by
  unfold isTagPre
  rw [List.any_eq_true]

theorem keep_noEarly (L b : Str)
    (hnone : findNextTag L dCfg.openTags dCfg.closeTags = none) :
    ∀ p ∈ TagsOf dCfg, ∀ j, OccAt p.1 j (L ++ b) →
      L.length - calcKeepTailLen dCfg L ≤ j := by
  intro p hp j hocc
  by_contra hjc
  have hjc' : j < L.length - calcKeepTailLen dCfg L := Nat.lt_of_not_le hjc
  have hpne : p.1 ≠ [] := dTags_ne_nil p hp
  have hppos : 0 < p.1.length := List.length_pos.2 hpne
  have hp11 : p.1.length ≤ 11 := dTags_len p hp
  rcases le_or_lt (j + p.1.length) L.length with hfit | hstr
  · exact findNextTag_none_occ dCfg L hnone p hp j (occAt_confine _ _ _ _ hocc hfit)
  · have hjL : j < L.length := by omega
    unfold OccAt at hocc
    obtain ⟨r, hr⟩ := (strLeads_exists _ _).1 hocc
    have hsplit : (lowerStr (L ++ b)).drop j = (lowerStr L).drop j ++ lowerStr b := by
      rw [lowerStr_append,
        List.drop_append_of_le_length (by rw [lowerStr_length]; omega)]
    have hlen : ((lowerStr L).drop j).length = L.length - j := by
      rw [List.length_drop, lowerStr_length]
    have htake : (lowerStr L).drop j = p.1.take (L.length - j) := by
      have h1 : ((lowerStr L).drop j ++ lowerStr b).take (L.length - j) =
          (lowerStr L).drop j := by
        rw [← hlen]
        exact List.take_left _ _
      rw [← h1, ← hsplit, hr]
      exact List.take_append_of_le_length (by omega)
    have hlead : strLeads ((lowerStr L).drop j) p.1 = true := by
      rw [htake]
      exact (strLeads_exists _ _).2
        ⟨p.1.drop (L.length - j), (List.take_append_drop _ _).symm⟩
    have hlast : lastN (L.length - j) (lowerStr L) = (lowerStr L).drop j := by
      unfold lastN
      rw [lowerStr_length]
      congr 1
      omega
    have hfalse := calcKeep_max dCfg L (L.length - j) (by omega)
      (by rw [dMaxTagLen]; exact Nat.le_min.2 ⟨by omega, by omega⟩)
    have htrue := isTagPre_of dCfg.allTags (lastN (L.length - j) (lowerStr L)) p.1
      (TagsOf_fst dCfg p hp) (by rw [hlast]; exact hlead)
    rw [hfalse] at htrue
    cases htrue

theorem findNextTag_shift_none (L b : Str)
    (hnone : findNextTag L dCfg.openTags dCfg.closeTags = none)
    (h2 : findNextTag (L.drop (L.length - calcKeepTailLen dCfg L) ++ b)
      dCfg.openTags dCfg.closeTags = none) :
    findNextTag (L ++ b) dCfg.openTags dCfg.closeTags = none := by
  rcases hf : findNextTag (L ++ b) dCfg.openTags dCfg.closeTags with _ | hit
  · rfl
  · exfalso
    obtain ⟨hmem, hocc, hmin⟩ := findNextTag_some_occ dCfg (L ++ b) hit hf
    have hge := keep_noEarly L b hnone _ hmem _ hocc
    have hkL : L.length - calcKeepTailLen dCfg L ≤ L.length := Nat.sub_le _ _
    have hcj : L.length - calcKeepTailLen dCfg L +
        (hit.index - (L.length - calcKeepTailLen dCfg L)) = hit.index := by omega
    have hocc2 : OccAt hit.tag (hit.index - (L.length - calcKeepTailLen dCfg L))
        ((L ++ b).drop (L.length - calcKeepTailLen dCfg L)) := by
      refine (occAt_shift _ _ _ _).1 ?_
      rw [hcj]
      exact hocc
    rw [List.drop_append_of_le_length hkL] at hocc2
    exact findNextTag_none_occ dCfg _ h2 _ hmem _ hocc2

theorem findNextTag_shift_some (L b : Str)
    (hnone : findNextTag L dCfg.openTags dCfg.closeTags = none) (hit : TagHit)
    (h2 : findNextTag (L.drop (L.length - calcKeepTailLen dCfg L) ++ b)
      dCfg.openTags dCfg.closeTags = some hit) :
    findNextTag (L ++ b) dCfg.openTags dCfg.closeTags =
      some ⟨L.length - calcKeepTailLen dCfg L + hit.index, hit.tag, hit.kind⟩ := by
  obtain ⟨hmem, hocc, hmin⟩ := findNextTag_some_occ dCfg _ hit h2
  have hkL : L.length - calcKeepTailLen dCfg L ≤ L.length := Nat.sub_le _ _
  have hdropeq : (L ++ b).drop (L.length - calcKeepTailLen dCfg L) =
      L.drop (L.length - calcKeepTailLen dCfg L) ++ b :=
    List.drop_append_of_le_length hkL
  have hocc' : OccAt hit.tag (L.length - calcKeepTailLen dCfg L + hit.index) (L ++ b) := by
    refine (occAt_shift _ _ _ _).2 ?_
    rw [hdropeq]
    exact hocc
  rcases hf : findNextTag (L ++ b) dCfg.openTags dCfg.closeTags with _ | hit2
  · exact absurd hocc' (findNextTag_none_occ dCfg (L ++ b) hf _ hmem _)
  · obtain ⟨hmem2, hocc2, hmin2⟩ := findNextTag_some_occ dCfg (L ++ b) hit2 hf
    have hge : L.length - calcKeepTailLen dCfg L ≤ hit2.index :=
      keep_noEarly L b hnone _ hmem2 _ hocc2
    have hocc2s : OccAt hit2.tag (hit2.index - (L.length - calcKeepTailLen dCfg L))
        (L.drop (L.length - calcKeepTailLen dCfg L) ++ b) := by
      rw [← hdropeq]
      refine (occAt_shift _ _ _ _).1 ?_
      have hcj : L.length - calcKeepTailLen dCfg L +
          (hit2.index - (L.length - calcKeepTailLen dCfg L)) = hit2.index := by omega
      rw [hcj]
      exact hocc2
    have h1 : hit.index ≤ hit2.index - (L.length - calcKeepTailLen dCfg L) :=
      hmin _ hmem2 _ hocc2s
    have h2' : hit2.index ≤ L.length - calcKeepTailLen dCfg L + hit.index :=
      hmin2 _ hmem _ hocc'
    have hidx : hit2.index = L.length - calcKeepTailLen dCfg L + hit.index := by omega
    unfold OccAt at hocc' hocc2
    rw [hidx] at hocc2
    have hEq : (hit2.tag, hit2.kind) = (hit.tag, hit.kind) := by
      rcases le_or_lt hit2.tag.length hit.tag.length with hl | hl
      · exact dTags_mutual _ hmem2 _ hmem (strLeads_mutual _ _ _ hocc2 hocc' hl)
      · exact (dTags_mutual _ hmem _ hmem2
          (strLeads_mutual _ _ _ hocc' hocc2 (Nat.le_of_lt hl))).symm
    congr 1
    cases hit2
    simp only [TagHit.mk.injEq]
    exact ⟨hidx, congrArg Prod.fst hEq, congrArg Prod.snd hEq⟩

theorem lastN_of_drop (s : Str) (c m : Nat) (hc : c ≤ s.length) (hm : m ≤ s.length - c) :
    lastN m (s.drop c) = lastN m s := by
  unfold lastN
  rw [List.length_drop, List.drop_drop]
  congr 1
  omega

theorem lowerStr_drop_append (L b : Str) (c : Nat) (hc : c ≤ L.length) :
    lowerStr (L.drop c ++ b) = (lowerStr (L ++ b)).drop c := by
  rw [lowerStr_append, lowerStr_append, lowerStr_drop]
  rw [← List.drop_append_of_le_length (show c ≤ (lowerStr L).length by
    rw [lowerStr_length]; exact hc)]

theorem lastN_append_right (x y : Str) (m : Nat) (hm : y.length ≤ m)
    (hx : m ≤ x.length + y.length) :
    lastN m (x ++ y) = lastN (m - y.length) x ++ y := by
  unfold lastN
  rw [List.length_append]
  rw [List.drop_append_of_le_length (by omega)]
  congr 2
  omega

theorem calcKeep_append_drop (L b : Str) :
    calcKeepTailLen dCfg (L ++ b) =
      calcKeepTailLen dCfg (L.drop (L.length - calcKeepTailLen dCfg L) ++ b) := by
  have h10 : dCfg.maxTagLen - 1 = 10 := by rw [dMaxTagLen]
  have hkL : calcKeepTailLen dCfg L ≤ L.length :=
    Nat.le_trans (calcKeep_le dCfg L) (Nat.min_le_right _ _)
  have hk10 : calcKeepTailLen dCfg L ≤ 10 := by
    have := Nat.le_trans (calcKeep_le dCfg L) (Nat.min_le_left _ _)
    omega
  have ht1len : (L.drop (L.length - calcKeepTailLen dCfg L)).length =
      calcKeepTailLen dCfg L := by
    rw [List.length_drop]
    omega
  have hcle : L.length - calcKeepTailLen dCfg L ≤ L.length := Nat.sub_le _ _
  have hXlen : (lowerStr (L ++ b)).length = L.length + b.length := by
    rw [lowerStr_length, List.length_append]
  have hsuffix : ∀ m, m ≤ calcKeepTailLen dCfg L + b.length →
      lastN m (lowerStr (L ++ b)) =
        lastN m (lowerStr (L.drop (L.length - calcKeepTailLen dCfg L) ++ b)) := by
    intro m hm
    rw [lowerStr_drop_append L b _ hcle]
    rw [lastN_of_drop (lowerStr (L ++ b)) _ m (by omega) (by omega)]
  have hk1min := calcKeep_le dCfg (L ++ b)
  rw [h10] at hk1min
  have hk1_10 : calcKeepTailLen dCfg (L ++ b) ≤ 10 :=
    Nat.le_trans hk1min (Nat.min_le_left _ _)
  have hk1_len : calcKeepTailLen dCfg (L ++ b) ≤ L.length + b.length := by
    have := Nat.le_trans hk1min (Nat.min_le_right _ _)
    rw [List.length_append] at this
    exact this
  have hk2min := calcKeep_le dCfg (L.drop (L.length - calcKeepTailLen dCfg L) ++ b)
  rw [h10] at hk2min
  have hk2_10 : calcKeepTailLen dCfg (L.drop (L.length - calcKeepTailLen dCfg L) ++ b) ≤ 10 :=
    Nat.le_trans hk2min (Nat.min_le_left _ _)
  have hk2_len : calcKeepTailLen dCfg (L.drop (L.length - calcKeepTailLen dCfg L) ++ b) ≤
      calcKeepTailLen dCfg L + b.length := by
    have := Nat.le_trans hk2min (Nat.min_le_right _ _)
    rw [List.length_append, ht1len] at this
    exact this
  refine Nat.le_antisymm ?_ ?_
  · rcases calcKeep_pre dCfg (L ++ b) with h0 | hpre
    · rw [h0]
      exact Nat.zero_le _
    · rcases le_or_lt (calcKeepTailLen dCfg (L ++ b))
          (calcKeepTailLen dCfg L + b.length) with hk1b | hk1b
      · have hpre2 : isTagPre dCfg.allTags
            (lastN (calcKeepTailLen dCfg (L ++ b))
              (lowerStr (L.drop (L.length - calcKeepTailLen dCfg L) ++ b))) = true := by
          rw [← hsuffix _ hk1b]
          exact hpre
        by_contra hlt
        have hmax := calcKeep_max dCfg (L.drop (L.length - calcKeepTailLen dCfg L) ++ b)
          (calcKeepTailLen dCfg (L ++ b)) (Nat.lt_of_not_le hlt)
          (by rw [h10, List.length_append, ht1len]; exact Nat.le_min.2 ⟨hk1_10, hk1b⟩)
        rw [hpre2] at hmax
        cases hmax
      · exfalso
        have hble : b.length ≤ calcKeepTailLen dCfg (L ++ b) := by omega
        have hsplit : lastN (calcKeepTailLen dCfg (L ++ b)) (lowerStr (L ++ b)) =
            lastN (calcKeepTailLen dCfg (L ++ b) - b.length) (lowerStr L) ++
              lowerStr b := by
          rw [lowerStr_append]
          rw [lastN_append_right (lowerStr L) (lowerStr b) _
            (by rw [lowerStr_length]; omega)
            (by rw [lowerStr_length, lowerStr_length]; omega)]
          rw [lowerStr_length]
        obtain ⟨t, ht, hlead⟩ := (isTagPre_iff _ _).1 hpre
        rw [hsplit] at hlead
        have hlead2 := strLeads_of_app_left _ _ _ hlead
        have hmax := calcKeep_max dCfg L (calcKeepTailLen dCfg (L ++ b) - b.length)
          (by omega) (by rw [h10]; exact Nat.le_min.2 ⟨by omega, by omega⟩)
        have htrue := isTagPre_of dCfg.allTags
          (lastN (calcKeepTailLen dCfg (L ++ b) - b.length) (lowerStr L)) t ht hlead2
        rw [hmax] at htrue
        cases htrue
  · rcases calcKeep_pre dCfg (L.drop (L.length - calcKeepTailLen dCfg L) ++ b) with h0 | hpre
    · rw [h0]
      exact Nat.zero_le _
    · have hpre2 : isTagPre dCfg.allTags
          (lastN (calcKeepTailLen dCfg (L.drop (L.length - calcKeepTailLen dCfg L) ++ b))
            (lowerStr (L ++ b))) = true := by
        rw [hsuffix _ hk2_len]
        exact hpre
      by_contra hlt
      have hmax := calcKeep_max dCfg (L ++ b)
        (calcKeepTailLen dCfg (L.drop (L.length - calcKeepTailLen dCfg L) ++ b))
        (Nat.lt_of_not_le hlt)
        (by rw [h10, List.length_append]; exact Nat.le_min.2 ⟨hk2_10, by omega⟩)
      rw [hpre2] at hmax
      cases hmax

end ThoughtChain

namespace ThoughtChain

theorem tagLoopF_succ_none (cfg : SplitterCfg) (f : Nat) (out : Delta) (B : Str) (m : Bool)
    (h : findNextTag B cfg.openTags cfg.closeTags = none) :
    tagLoopF cfg (f + 1) out B m = (out, B, m) := by
  simp [tagLoopF, h]

theorem tagLoopF_succ_some (cfg : SplitterCfg) (f : Nat) (out : Delta) (B : Str) (m : Bool)
    (hit : TagHit) (h : findNextTag B cfg.openTags cfg.closeTags = some hit) :
    tagLoopF cfg (f + 1) out B m =
      tagLoopF cfg f (appendOut m out (B.take hit.index))
        (B.drop (hit.index + hit.tag.length)) (hit.kind == TagKind.openTag) := by
  simp [tagLoopF, h]

theorem dHit_facts (B : Str) (hit : TagHit)
    (h : findNextTag B dCfg.openTags dCfg.closeTags = some hit) :
    1 ≤ hit.tag.length ∧ hit.index + hit.tag.length ≤ B.length := by
  obtain ⟨hmem, hocc, _⟩ := findNextTag_some_occ dCfg B hit h
  have hne : hit.tag ≠ [] := dTags_ne_nil _ hmem
  exact ⟨List.length_pos.2 hne, occAt_bound _ _ _ hocc hne⟩

theorem tagLoopF_fuel (f1 : Nat) : ∀ (f2 : Nat) (B : Str) (out : Delta) (m : Bool),
    B.length < f1 → B.length < f2 →
    tagLoopF dCfg f1 out B m = tagLoopF dCfg f2 out B m := by
  induction f1 with
  | zero =>
    intro f2 B out m h1 h2
    omega
  | succ f ih =>
    intro f2 B out m h1 h2
    cases f2 with
    | zero => omega
    | succ g =>
      rcases hfind : findNextTag B dCfg.openTags dCfg.closeTags with _ | hit
      · rw [tagLoopF_succ_none dCfg f out B m hfind,
          tagLoopF_succ_none dCfg g out B m hfind]
      · obtain ⟨hl, hb⟩ := dHit_facts B hit hfind
        rw [tagLoopF_succ_some dCfg f out B m hit hfind,
          tagLoopF_succ_some dCfg g out B m hit hfind]
        have hlen : (B.drop (hit.index + hit.tag.length)).length < B.length := by
          rw [List.length_drop]
          omega
        exact ih g _ _ _ (by omega) (by omega)

theorem tagLoopF_norm (fuel : Nat) (out : Delta) (B : Str) (m : Bool) (h : B.length < fuel) :
    tagLoopF dCfg fuel out B m =
      (dapp out (tagLoop dCfg emptyDelta B m).1, (tagLoop dCfg emptyDelta B m).2) := by
  rw [tagLoopF_fuel fuel (B.length + 1) B out m h (Nat.lt_succ_self _)]
  unfold tagLoop
  rw [tagLoopF_trace dCfg (B.length + 1) B m out,
    tagLoopF_trace dCfg (B.length + 1) B m emptyDelta, dapp_empty_left]

theorem tagLoop_exhaust (fuel : Nat) : ∀ (B : Str) (m : Bool) (out : Delta),
    B.length < fuel →
    findNextTag (tagLoopF dCfg fuel out B m).2.1 dCfg.openTags dCfg.closeTags = none := by
  induction fuel with
  | zero =>
    intro B m out h
    omega
  | succ f ih =>
    intro B m out h
    rcases hfind : findNextTag B dCfg.openTags dCfg.closeTags with _ | hit
    · rw [tagLoopF_succ_none dCfg f out B m hfind]
      exact hfind
    · obtain ⟨hl, hb⟩ := dHit_facts B hit hfind
      rw [tagLoopF_succ_some dCfg f out B m hit hfind]
      exact ih _ _ _ (by rw [List.length_drop]; omega)

theorem tagLoop_leftover_none (B : Str) (m : Bool) (out : Delta) :
    findNextTag (tagLoop dCfg out B m).2.1 dCfg.openTags dCfg.closeTags = none :=
  tagLoop_exhaust (B.length + 1) B m out (Nat.lt_succ_self _)

theorem tagLoop_append_aux (n : Nat) : ∀ (B b : Str) (m : Bool), B.length ≤ n →
    tagLoop dCfg emptyDelta (B ++ b) m =
      (dapp (tagLoop dCfg emptyDelta B m).1
        (tagLoop dCfg emptyDelta ((tagLoop dCfg emptyDelta B m).2.1 ++ b)
          (tagLoop dCfg emptyDelta B m).2.2).1,
       (tagLoop dCfg emptyDelta ((tagLoop dCfg emptyDelta B m).2.1 ++ b)
         (tagLoop dCfg emptyDelta B m).2.2).2) := by
  induction n with
  | zero =>
    intro B b m hn
    rcases hfind : findNextTag B dCfg.openTags dCfg.closeTags with _ | hit
    · have hB : tagLoop dCfg emptyDelta B m = (emptyDelta, B, m) := by
        unfold tagLoop
        exact tagLoopF_succ_none dCfg B.length emptyDelta B m hfind
      rw [hB]
      dsimp only
      rw [dapp_empty_left]
    · exfalso
      obtain ⟨hl, hb⟩ := dHit_facts B hit hfind
      omega
  | succ n ih =>
    intro B b m hn
    rcases hfind : findNextTag B dCfg.openTags dCfg.closeTags with _ | hit
    · have hB : tagLoop dCfg emptyDelta B m = (emptyDelta, B, m) := by
        unfold tagLoop
        exact tagLoopF_succ_none dCfg B.length emptyDelta B m hfind
      rw [hB]
      dsimp only
      rw [dapp_empty_left]
    · obtain ⟨hl, hb⟩ := dHit_facts B hit hfind
      have hfind2 := findNextTag_app B b hit hfind
      have hstep2 : tagLoop dCfg emptyDelta (B ++ b) m =
          tagLoopF dCfg (B ++ b).length
            (appendOut m emptyDelta ((B ++ b).take hit.index))
            ((B ++ b).drop (hit.index + hit.tag.length))
            (hit.kind == TagKind.openTag) := by
        unfold tagLoop
        exact tagLoopF_succ_some dCfg (B ++ b).length emptyDelta (B ++ b) m hit hfind2
      have htake : (B ++ b).take hit.index = B.take hit.index :=
        List.take_append_of_le_length (by omega)
      have hdrop : (B ++ b).drop (hit.index + hit.tag.length) =
          B.drop (hit.index + hit.tag.length) ++ b :=
        List.drop_append_of_le_length (by omega)
      rw [hstep2, htake, hdrop]
      rw [tagLoopF_norm (B ++ b).length _ _ _
        (by rw [List.length_append, List.length_append, List.length_drop]; omega)]
      have hIH := ih (B.drop (hit.index + hit.tag.length)) b
        (hit.kind == TagKind.openTag) (by rw [List.length_drop]; omega)
      rw [hIH]
      have hstepB : tagLoop dCfg emptyDelta B m =
          tagLoopF dCfg B.length
            (appendOut m emptyDelta (B.take hit.index))
            (B.drop (hit.index + hit.tag.length))
            (hit.kind == TagKind.openTag) := by
        unfold tagLoop
        exact tagLoopF_succ_some dCfg B.length emptyDelta B m hit hfind
      rw [hstepB, tagLoopF_norm B.length _ _ _ (by rw [List.length_drop]; omega)]
      dsimp only
      rw [dapp_assoc]

theorem tagLoop_append (B b : Str) (m : Bool) :
    tagLoop dCfg emptyDelta (B ++ b) m =
      (dapp (tagLoop dCfg emptyDelta B m).1
        (tagLoop dCfg emptyDelta ((tagLoop dCfg emptyDelta B m).2.1 ++ b)
          (tagLoop dCfg emptyDelta B m).2.2).1,
       (tagLoop dCfg emptyDelta ((tagLoop dCfg emptyDelta B m).2.1 ++ b)
         (tagLoop dCfg emptyDelta B m).2.2).2) :=
  tagLoop_append_aux B.length B b m (Nat.le_refl _)

end ThoughtChain

namespace ThoughtChain

theorem tagLoop_splice (L b : Str) (m : Bool)
    (hnone : findNextTag L dCfg.openTags dCfg.closeTags = none) (hit : TagHit)
    (h2 : findNextTag (L.drop (L.length - calcKeepTailLen dCfg L) ++ b)
      dCfg.openTags dCfg.closeTags = some hit) :
    tagLoop dCfg emptyDelta (L ++ b) m =
      (dapp (appendOut m emptyDelta (L.take (L.length - calcKeepTailLen dCfg L)))
        (tagLoop dCfg emptyDelta
          (L.drop (L.length - calcKeepTailLen dCfg L) ++ b) m).1,
       (tagLoop dCfg emptyDelta
         (L.drop (L.length - calcKeepTailLen dCfg L) ++ b) m).2) := by
  have hkL : calcKeepTailLen dCfg L ≤ L.length :=
    Nat.le_trans (calcKeep_le dCfg L) (Nat.min_le_right _ _)
  have hcle : L.length - calcKeepTailLen dCfg L ≤ L.length := Nat.sub_le _ _
  have ht1 : (L ++ b).drop (L.length - calcKeepTailLen dCfg L) =
      L.drop (L.length - calcKeepTailLen dCfg L) ++ b :=
    List.drop_append_of_le_length hcle
  obtain ⟨hl1, hb1⟩ := dHit_facts _ hit h2
  rw [List.length_append, List.length_drop] at hb1
  have hf := findNextTag_shift_some L b hnone hit h2
  have hstep : tagLoop dCfg emptyDelta (L ++ b) m =
      tagLoopF dCfg (L ++ b).length
        (appendOut m emptyDelta
          ((L ++ b).take (L.length - calcKeepTailLen dCfg L + hit.index)))
        ((L ++ b).drop (L.length - calcKeepTailLen dCfg L + hit.index + hit.tag.length))
        (hit.kind == TagKind.openTag) := by
    unfold tagLoop
    exact tagLoopF_succ_some dCfg (L ++ b).length emptyDelta (L ++ b) m _ hf
  have htake : (L ++ b).take (L.length - calcKeepTailLen dCfg L + hit.index) =
      L.take (L.length - calcKeepTailLen dCfg L) ++
        (L.drop (L.length - calcKeepTailLen dCfg L) ++ b).take hit.index := by
    rw [List.take_add, List.take_append_of_le_length hcle, ht1]
  have hdropX : (L ++ b).drop
      (L.length - calcKeepTailLen dCfg L + hit.index + hit.tag.length) =
      (L.drop (L.length - calcKeepTailLen dCfg L) ++ b).drop
        (hit.index + hit.tag.length) := by
    rw [← ht1, List.drop_drop]
    congr 1
    omega
  have hstepR : tagLoop dCfg emptyDelta
      (L.drop (L.length - calcKeepTailLen dCfg L) ++ b) m =
      tagLoopF dCfg (L.drop (L.length - calcKeepTailLen dCfg L) ++ b).length
        (appendOut m emptyDelta
          ((L.drop (L.length - calcKeepTailLen dCfg L) ++ b).take hit.index))
        ((L.drop (L.length - calcKeepTailLen dCfg L) ++ b).drop
          (hit.index + hit.tag.length))
        (hit.kind == TagKind.openTag) := by
    unfold tagLoop
    exact tagLoopF_succ_some dCfg _ emptyDelta _ m hit h2
  rw [hstep, htake, hdropX, appendOut_split]
  rw [tagLoopF_norm (L ++ b).length _ _ _
    (by rw [List.length_drop, List.length_append, List.length_append, List.length_drop]
        omega)]
  rw [hstepR, tagLoopF_norm (L.drop (L.length - calcKeepTailLen dCfg L) ++ b).length _ _ _
    (by rw [List.length_drop, List.length_append, List.length_drop]
        omega)]
  dsimp only
  rw [dapp_assoc]

theorem pushStr_post (st : SplitterState) (a : Str) (ha : a ≠ []) :
    pushStr dCfg st a =
      (dapp (tagLoop dCfg emptyDelta (st.buffer ++ a) st.inThinking).1
        (appendOut (tagLoop dCfg emptyDelta (st.buffer ++ a) st.inThinking).2.2 emptyDelta
          ((tagLoop dCfg emptyDelta (st.buffer ++ a) st.inThinking).2.1.take
            ((tagLoop dCfg emptyDelta (st.buffer ++ a) st.inThinking).2.1.length -
              calcKeepTailLen dCfg
                (tagLoop dCfg emptyDelta (st.buffer ++ a) st.inThinking).2.1))),
       ⟨(tagLoop dCfg emptyDelta (st.buffer ++ a) st.inThinking).2.1.drop
          ((tagLoop dCfg emptyDelta (st.buffer ++ a) st.inThinking).2.1.length -
            calcKeepTailLen dCfg
              (tagLoop dCfg emptyDelta (st.buffer ++ a) st.inThinking).2.1),
        (tagLoop dCfg emptyDelta (st.buffer ++ a) st.inThinking).2.2⟩) := by
  unfold pushStr
  rw [if_neg ha]
  set P := tagLoop dCfg emptyDelta (st.buffer ++ a) st.inThinking with hP
  set L := P.2.1 with hL
  set k := calcKeepTailLen dCfg L with hk
  have hkle : k ≤ L.length := Nat.le_trans (calcKeep_le dCfg L) (Nat.min_le_right _ _)
  by_cases h0 : 0 < k
  · rw [if_pos h0, appendOut_dapp]
  · rw [if_neg h0]
    have hk0 : k = 0 := by omega
    by_cases hLe : L = []
    · have hLe' : (tagLoop dCfg emptyDelta (st.buffer ++ a) st.inThinking).2.1 = [] := hLe
      rw [if_neg (fun hne => hne hLe')]
      rw [hk0, Nat.sub_zero, hLe']
      simp [appendOut, dapp_empty_right, hLe, ← hP]
    · rw [if_pos hLe]
      rw [hk0, Nat.sub_zero, List.take_length, List.drop_length, appendOut_dapp]

end ThoughtChain

namespace ThoughtChain

theorem pushStr_empty (st : SplitterState) : pushStr dCfg st [] = (emptyDelta, st) := by
  unfold pushStr
  rw [if_pos rfl]

theorem calcKeep_le_len (L : Str) : calcKeepTailLen dCfg L ≤ L.length :=
  Nat.le_trans (calcKeep_le dCfg L) (Nat.min_le_right _ _)

end ThoughtChain

namespace ThoughtChain

theorem pushStr_finish (st : SplitterState) (a : Str) (ha : a ≠ []) :
    pushStr dCfg st a =
      finishPush (tagLoop dCfg emptyDelta (st.buffer ++ a) st.inThinking) := by
  rw [pushStr_post st a ha]
  rfl

theorem finishPush_dapp (x : Delta) (P : Delta × Str × Bool) :
    finishPush (dapp x P.1, P.2) = (dapp x (finishPush P).1, (finishPush P).2) := by
  unfold finishPush
  dsimp only
  rw [dapp_assoc]

theorem finish_core (L b : Str) (m1 : Bool)
    (hnone : findNextTag L dCfg.openTags dCfg.closeTags = none) :
    finishPush (tagLoop dCfg emptyDelta (L ++ b) m1) =
      (dapp (appendOut m1 emptyDelta (L.take (L.length - calcKeepTailLen dCfg L)))
        (finishPush (tagLoop dCfg emptyDelta
          (L.drop (L.length - calcKeepTailLen dCfg L) ++ b) m1)).1,
       (finishPush (tagLoop dCfg emptyDelta
         (L.drop (L.length - calcKeepTailLen dCfg L) ++ b) m1)).2) := by
  rcases hf2 : findNextTag (L.drop (L.length - calcKeepTailLen dCfg L) ++ b)
      dCfg.openTags dCfg.closeTags with _ | hit
  · have hfLb := findNextTag_shift_none L b hnone hf2
    have hR : tagLoop dCfg emptyDelta (L ++ b) m1 = (emptyDelta, L ++ b, m1) := by
      unfold tagLoop
      exact tagLoopF_succ_none dCfg _ _ _ _ hfLb
    have hT : tagLoop dCfg emptyDelta
        (L.drop (L.length - calcKeepTailLen dCfg L) ++ b) m1 =
        (emptyDelta, L.drop (L.length - calcKeepTailLen dCfg L) ++ b, m1) := by
      unfold tagLoop
      exact tagLoopF_succ_none dCfg _ _ _ _ hf2
    rw [hR, hT]
    unfold finishPush
    dsimp only
    rw [dapp_empty_left, dapp_empty_left]
    have hkle : calcKeepTailLen dCfg L ≤ L.length := calcKeep_le_len L
    have hkeq := calcKeep_append_drop L b
    have hk2le : calcKeepTailLen dCfg
        (L.drop (L.length - calcKeepTailLen dCfg L) ++ b) ≤
        calcKeepTailLen dCfg L + b.length := by
      have := calcKeep_le_len (L.drop (L.length - calcKeepTailLen dCfg L) ++ b)
      rw [List.length_append, List.length_drop] at this
      omega
    have hdropc : (L ++ b).drop (L.length - calcKeepTailLen dCfg L) =
        L.drop (L.length - calcKeepTailLen dCfg L) ++ b :=
      List.drop_append_of_le_length (Nat.sub_le _ _)
    have hlen1 : (L ++ b).length -
        calcKeepTailLen dCfg (L.drop (L.length - calcKeepTailLen dCfg L) ++ b) =
        (L.length - calcKeepTailLen dCfg L) +
          ((L.drop (L.length - calcKeepTailLen dCfg L) ++ b).length -
            calcKeepTailLen dCfg (L.drop (L.length - calcKeepTailLen dCfg L) ++ b)) := by
      rw [List.length_append, List.length_append, List.length_drop]
      omega
    have htakeid : (L ++ b).take ((L ++ b).length -
        calcKeepTailLen dCfg (L.drop (L.length - calcKeepTailLen dCfg L) ++ b)) =
        L.take (L.length - calcKeepTailLen dCfg L) ++
          (L.drop (L.length - calcKeepTailLen dCfg L) ++ b).take
            ((L.drop (L.length - calcKeepTailLen dCfg L) ++ b).length -
              calcKeepTailLen dCfg (L.drop (L.length - calcKeepTailLen dCfg L) ++ b)) := by
      rw [hlen1, List.take_add, hdropc, List.take_append_of_le_length (Nat.sub_le _ _)]
    have hdropid : (L ++ b).drop ((L ++ b).length -
        calcKeepTailLen dCfg (L.drop (L.length - calcKeepTailLen dCfg L) ++ b)) =
        (L.drop (L.length - calcKeepTailLen dCfg L) ++ b).drop
          ((L.drop (L.length - calcKeepTailLen dCfg L) ++ b).length -
            calcKeepTailLen dCfg (L.drop (L.length - calcKeepTailLen dCfg L) ++ b)) := by
      rw [hlen1, ← hdropc, List.drop_drop]
    rw [hkeq, htakeid, hdropid, appendOut_split]
  · have hsp := tagLoop_splice L b m1 hnone hit hf2
    rw [hsp]
    exact finishPush_dapp _ _

theorem pushStr_comp (st : SplitterState) (a b : Str) :
    pushStr dCfg st (a ++ b) =
      (dapp (pushStr dCfg st a).1 (pushStr dCfg (pushStr dCfg st a).2 b).1,
       (pushStr dCfg (pushStr dCfg st a).2 b).2) := by
  by_cases hae : a = []
  · subst hae
    rw [List.nil_append, pushStr_empty]
    dsimp only
    rw [dapp_empty_left]
  · by_cases hbe : b = []
    · subst hbe
      rw [List.append_nil, pushStr_empty]
      dsimp only
      rw [dapp_empty_right]
    · have hab : a ++ b ≠ [] := by
        intro h
        rcases List.append_eq_nil.1 h with ⟨h1, _⟩
        exact hae h1
      rw [pushStr_finish st (a ++ b) hab, pushStr_finish st a hae,
        pushStr_finish _ b hbe]
      have hassoc : st.buffer ++ (a ++ b) = (st.buffer ++ a) ++ b :=
        (List.append_assoc _ _ _).symm
      rw [hassoc, tagLoop_append (st.buffer ++ a) b st.inThinking]
      rw [finishPush_dapp]
      rw [finish_core (tagLoop dCfg emptyDelta (st.buffer ++ a) st.inThinking).2.1 b
        (tagLoop dCfg emptyDelta (st.buffer ++ a) st.inThinking).2.2
        (tagLoop_leftover_none (st.buffer ++ a) st.inThinking emptyDelta)]
      show (dapp (tagLoop dCfg emptyDelta (st.buffer ++ a) st.inThinking).1 _, _) = _
      rw [← dapp_assoc]
      rfl

end ThoughtChain

namespace ThoughtChain

theorem runPushes_concat (cs : List Str) : ∀ st : SplitterState,
    (runPushes dCfg st cs).2 = (pushStr dCfg st cs.flatten).2 ∧
    List.foldr dapp emptyDelta (runPushes dCfg st cs).1 =
      (pushStr dCfg st cs.flatten).1 := by
  induction cs with
  | nil =>
    intro st
    constructor
    · show st = (pushStr dCfg st [].flatten).2
      rw [List.flatten_nil, pushStr_empty]
    · show emptyDelta = (pushStr dCfg st [].flatten).1
      rw [List.flatten_nil, pushStr_empty]
  | cons c cs ih =>
    intro st
    have hflat : (c :: cs).flatten = c ++ cs.flatten := rfl
    rw [hflat, pushStr_comp st c cs.flatten]
    obtain ⟨ih1, ih2⟩ := ih (pushStr dCfg st c).2
    constructor
    · show (runPushes dCfg (pushStr dCfg st c).2 cs).2 = _
      exact ih1
    · show List.foldr dapp emptyDelta
          ((pushStr dCfg st c).1 :: (runPushes dCfg (pushStr dCfg st c).2 cs).1) = _
      rw [List.foldr_cons, ih2]

theorem foldr_dapp_content (ds : List Delta) :
    (List.foldr dapp emptyDelta ds).contentDelta =
      (ds.map Delta.contentDelta).flatten := by
  induction ds with
  | nil => rfl
  | cons d ds ih => simp [dapp, ih]

theorem foldr_dapp_thinking (ds : List Delta) :
    (List.foldr dapp emptyDelta ds).thinkingDelta =
      (ds.map Delta.thinkingDelta).flatten := by
  induction ds with
  | nil => rfl
  | cons d ds ih => simp [dapp, ih]

end ThoughtChain

/-- Chunk-boundary invariance of the splitter over the character-wise
lowercasing model: for every way of cutting an input string into sub-chunks
(including cuts inside a tag), feeding the sub-chunks as successive `push`
calls followed by a terminal `flush` yields the same concatenated
`contentDelta` and `thinkingDelta` as a single `push` of the whole string
followed by `flush`, and the splitter ends in the same state. -/
theorem asciiChunkInvariance (cs : List Str) :
    ((ThoughtChain.runPushes ThoughtChain.dCfg ThoughtChain.initState cs).1.map
        ThoughtChain.Delta.contentDelta).flatten ++
      (ThoughtChain.flush
        (ThoughtChain.runPushes ThoughtChain.dCfg ThoughtChain.initState cs).2).1.contentDelta =
      (ThoughtChain.pushStr ThoughtChain.dCfg ThoughtChain.initState cs.flatten).1.contentDelta ++
        (ThoughtChain.flush
          (ThoughtChain.pushStr ThoughtChain.dCfg ThoughtChain.initState
            cs.flatten).2).1.contentDelta ∧
    ((ThoughtChain.runPushes ThoughtChain.dCfg ThoughtChain.initState cs).1.map
        ThoughtChain.Delta.thinkingDelta).flatten ++
      (ThoughtChain.flush
        (ThoughtChain.runPushes ThoughtChain.dCfg ThoughtChain.initState cs).2).1.thinkingDelta =
      (ThoughtChain.pushStr ThoughtChain.dCfg ThoughtChain.initState cs.flatten).1.thinkingDelta ++
        (ThoughtChain.flush
          (ThoughtChain.pushStr ThoughtChain.dCfg ThoughtChain.initState
            cs.flatten).2).1.thinkingDelta ∧
    (ThoughtChain.runPushes ThoughtChain.dCfg ThoughtChain.initState cs).2 =
      (ThoughtChain.pushStr ThoughtChain.dCfg ThoughtChain.initState cs.flatten).2 := by
  obtain ⟨hst, hd⟩ := ThoughtChain.runPushes_concat cs ThoughtChain.initState
  refine ⟨?_, ?_, hst⟩
  · rw [← ThoughtChain.foldr_dapp_content, hd, hst]
  · rw [← ThoughtChain.foldr_dapp_thinking, hd, hst]

theorem cleanChar_spec (c : Char) (h : cleanChar c = true) : jsLowerChar c = [Char.toLower c] := by
  have h' : (jsLowerChar c == [Char.toLower c]) = true := h
  exact eq_of_beq h'

theorem jsToLower_eq_lower : ∀ s : Str, cleanStr s = true → jsToLower s = lowerStr s := by
  intro s
  induction s with
  | nil => intro _; rfl
  | cons c s ih =>
    intro h
    have h' : (c :: s).all cleanChar = true := h
    rw [List.all_cons, Bool.and_eq_true] at h'
    have h1 := cleanChar_spec c h'.1
    show (List.map jsLowerChar (c :: s)).flatten = List.map Char.toLower (c :: s)
    rw [List.map_cons, List.flatten_cons, h1]
    have h2 : (List.map jsLowerChar s).flatten = List.map Char.toLower s := ih h'.2
    rw [h2, List.map_cons]
    rfl

theorem cleanStr_sub (s t : Str) (hsub : t ⊆ s) (h : cleanStr s = true) : cleanStr t = true := by
  have h' : ∀ c ∈ s, cleanChar c = true := List.all_eq_true.1 h
  exact List.all_eq_true.2 (fun c hc => h' c (hsub hc))

theorem cleanStr_drop (s : Str) (n : Nat) (h : cleanStr s = true) :
    cleanStr (s.drop n) = true :=
  cleanStr_sub s _ (List.drop_subset n s) h

theorem cleanStr_append (a b : Str) (ha : cleanStr a = true) (hb : cleanStr b = true) :
    cleanStr (a ++ b) = true := by
  have ha' := List.all_eq_true.1 ha
  have hb' := List.all_eq_true.1 hb
  refine List.all_eq_true.2 (fun c hc => ?_)
  rcases List.mem_append.1 hc with h1 | h1
  · exact ha' c h1
  · exact hb' c h1

theorem cleanStr_flatten (cs : List Str) (h : cs.all cleanStr = true) :
    cleanStr cs.flatten = true := by
  have h' := List.all_eq_true.1 h
  refine List.all_eq_true.2 (fun c hc => ?_)
  rcases List.mem_flatten.1 hc with ⟨l, hl, hcl⟩
  exact List.all_eq_true.1 (h' l hl) c hcl

namespace ThoughtChain

theorem findNextTagJs_eq (text : Str) (oT cT : List Str) (h : cleanStr text = true) :
    findNextTagJs text oT cT = findNextTag text oT cT := by
  show scanTags (jsToLower text) .closeTag cT (scanTags (jsToLower text) .openTag oT none) =
    scanTags (lowerStr text) .closeTag cT (scanTags (lowerStr text) .openTag oT none)
  rw [jsToLower_eq_lower text h]

theorem calcKeepJs_eq (cfg : SplitterCfg) (buffer : Str) (h : cleanStr buffer = true) :
    calcKeepTailLenJs cfg buffer = calcKeepTailLen cfg buffer := by
  show keepLoop cfg.allTags (jsToLower buffer) (Nat.min (cfg.maxTagLen - 1) buffer.length) =
    keepLoop cfg.allTags (lowerStr buffer) (Nat.min (cfg.maxTagLen - 1) buffer.length)
  rw [jsToLower_eq_lower buffer h]

theorem tagLoopFJs_eq (cfg : SplitterCfg) : ∀ (fuel : Nat) (out : Delta) (B : Str) (m : Bool),
    cleanStr B = true → tagLoopFJs cfg fuel out B m = tagLoopF cfg fuel out B m := by
  intro fuel
  induction fuel with
  | zero => intro out B m _; rfl
  | succ fuel ih =>
    intro out B m h
    unfold tagLoopFJs tagLoopF
    rw [findNextTagJs_eq B cfg.openTags cfg.closeTags h]
    cases findNextTag B cfg.openTags cfg.closeTags with
    | none => rfl
    | some hit => exact ih _ _ _ (cleanStr_drop B _ h)

theorem tagLoopF_leftover_clean (cfg : SplitterCfg) : ∀ (fuel : Nat) (out : Delta) (B : Str)
    (m : Bool), cleanStr B = true → cleanStr (tagLoopF cfg fuel out B m).2.1 = true := by
  intro fuel
  induction fuel with
  | zero => intro out B m h; exact h
  | succ fuel ih =>
    intro out B m h
    unfold tagLoopF
    cases findNextTag B cfg.openTags cfg.closeTags with
    | none => exact h
    | some hit => exact ih _ _ _ (cleanStr_drop B _ h)

theorem pushStrJs_eq (cfg : SplitterCfg) (st : SplitterState) (c : Str)
    (hb : cleanStr st.buffer = true) (hc : cleanStr c = true) :
    pushStrJs cfg st c = pushStr cfg st c := by
  by_cases hce : c = []
  · subst hce
    unfold pushStrJs pushStr
    rw [if_pos rfl, if_pos rfl]
  · have hb0 : cleanStr (st.buffer ++ c) = true := cleanStr_append _ _ hb hc
    have hL : cleanStr (tagLoop cfg emptyDelta (st.buffer ++ c) st.inThinking).2.1 = true := by
      show cleanStr (tagLoopF cfg ((st.buffer ++ c).length + 1) emptyDelta (st.buffer ++ c)
        st.inThinking).2.1 = true
      exact tagLoopF_leftover_clean cfg _ _ _ _ hb0
    have h1 : tagLoopJs cfg emptyDelta (st.buffer ++ c) st.inThinking =
        tagLoop cfg emptyDelta (st.buffer ++ c) st.inThinking := by
      show tagLoopFJs cfg ((st.buffer ++ c).length + 1) emptyDelta (st.buffer ++ c)
          st.inThinking =
        tagLoopF cfg ((st.buffer ++ c).length + 1) emptyDelta (st.buffer ++ c) st.inThinking
      exact tagLoopFJs_eq cfg _ _ _ _ hb0
    have h2 : calcKeepTailLenJs cfg (tagLoop cfg emptyDelta (st.buffer ++ c) st.inThinking).2.1 =
        calcKeepTailLen cfg (tagLoop cfg emptyDelta (st.buffer ++ c) st.inThinking).2.1 :=
      calcKeepJs_eq cfg _ hL
    unfold pushStrJs pushStr
    rw [if_neg hce, if_neg hce]
    dsimp only
    rw [h1, h2]

theorem pushStr_state_clean (cfg : SplitterCfg) (st : SplitterState) (c : Str)
    (hb : cleanStr st.buffer = true) (hc : cleanStr c = true) :
    cleanStr (pushStr cfg st c).2.buffer = true := by
  by_cases hce : c = []
  · subst hce
    unfold pushStr
    rw [if_pos rfl]
    exact hb
  · have hb0 : cleanStr (st.buffer ++ c) = true := cleanStr_append _ _ hb hc
    have hL : cleanStr (tagLoop cfg emptyDelta (st.buffer ++ c) st.inThinking).2.1 = true := by
      show cleanStr (tagLoopF cfg ((st.buffer ++ c).length + 1) emptyDelta (st.buffer ++ c)
        st.inThinking).2.1 = true
      exact tagLoopF_leftover_clean cfg _ _ _ _ hb0
    unfold pushStr
    rw [if_neg hce]
    dsimp only
    by_cases hk :
        0 < calcKeepTailLen cfg (tagLoop cfg emptyDelta (st.buffer ++ c) st.inThinking).2.1
    · rw [if_pos hk]
      exact cleanStr_drop _ _ hL
    · rw [if_neg hk]
      by_cases hne : (tagLoop cfg emptyDelta (st.buffer ++ c) st.inThinking).2.1 ≠ []
      · rw [if_pos hne]
        rfl
      · rw [if_neg hne]
        exact hL

theorem runPushesJs_eq (cfg : SplitterCfg) : ∀ (cs : List Str) (st : SplitterState),
    (∀ c ∈ cs, cleanStr c = true) → cleanStr st.buffer = true →
    runPushesJs cfg st cs = runPushes cfg st cs := by
  intro cs
  induction cs with
  | nil => intro st _ _; rfl
  | cons c cs ih =>
    intro st hcs hb
    have hc : cleanStr c = true := hcs c (List.mem_cons_self c cs)
    unfold runPushesJs runPushes
    dsimp only
    rw [pushStrJs_eq cfg st c hb hc]
    rw [ih (pushStr cfg st c).2 (fun d hd => hcs d (List.mem_cons_of_mem c hd))
      (pushStr_state_clean cfg st c hb hc)]

end ThoughtChain

/-- C1 counterexample: on `push('İ<think>x')` the source computes tag indices
on `buffer.toLowerCase()` — in which U+0130 expands to the two code units
`i` + U+0307, putting `<think>` at lowered index 2 — but slices the un-lowered
buffer with those indices, so the call returns content `İ<`, empty thinking,
and an empty buffer (so the terminal `flush` emits nothing).  The character
`x` occurs in the input, in no emitted text, and in no configured tag (so in
no exact matched tag substring): it is dropped, falsifying the unrestricted
no-loss claim. -/
theorem claim1_counterexample :
    ThoughtChain.pushStrJs ThoughtChain.dCfg ThoughtChain.initState (strOf "İ<think>x") =
      (⟨strOf "İ<", []⟩, ⟨[], true⟩) ∧
    ThoughtChain.flush ⟨[], true⟩ = (ThoughtChain.emptyDelta, ⟨[], true⟩) ∧
    'x' ∈ strOf "İ<think>x" ∧
    'x' ∉ strOf "İ<" ∧
    (ThoughtChain.SplitterCfg.allTags ThoughtChain.dCfg).all
      (fun t => !(t.contains 'x') && !(t.contains 'X')) = true := by
  decide

/-- C1 (amended): restricted to chunks in which every character lowercases
character-wise (`cleanStr`: every character other than U+0130 and U+212A; in
particular, all ASCII input), the JS-lowercasing splitter coincides with the
character-wise model, and for every sequence of `push` calls on a default-tag
splitter followed by one terminal `flush` the emissions form an ordered trace
whose text — content pieces, thinking pieces, and the exact consumed tag
substrings, in emission order — concatenates to exactly the concatenated
input; the actual `push`/`flush` return values are the per-channel collapses
of that trace, so no input character is duplicated, dropped (except the
matched tag substrings), or reordered.  Unrestricted, the claim is false. -/
theorem claim1_no_loss_clean (cs : List Str) (h : cs.all cleanStr = true) :
    ThoughtChain.runPushesJs ThoughtChain.dCfg ThoughtChain.initState cs =
      ThoughtChain.runPushes ThoughtChain.dCfg ThoughtChain.initState cs ∧
    ThoughtChain.eventsText
        ((ThoughtChain.runPushesT ThoughtChain.dCfg ThoughtChain.initState cs).1.flatten ++
          (ThoughtChain.flushT
            (ThoughtChain.runPushesT ThoughtChain.dCfg ThoughtChain.initState cs).2).1) =
      cs.flatten ∧
    (ThoughtChain.runPushes ThoughtChain.dCfg ThoughtChain.initState cs).1 =
      ((ThoughtChain.runPushesT ThoughtChain.dCfg ThoughtChain.initState cs).1).map
        ThoughtChain.deltaOfEvents ∧
    (ThoughtChain.runPushes ThoughtChain.dCfg ThoughtChain.initState cs).2 =
      (ThoughtChain.runPushesT ThoughtChain.dCfg ThoughtChain.initState cs).2 ∧
    (ThoughtChain.flush
        (ThoughtChain.runPushes ThoughtChain.dCfg ThoughtChain.initState cs).2).1 =
      ThoughtChain.deltaOfEvents
        (ThoughtChain.flushT
          (ThoughtChain.runPushesT ThoughtChain.dCfg ThoughtChain.initState cs).2).1 := by
  have hmem : ∀ c ∈ cs, cleanStr c = true := List.all_eq_true.1 h
  have hagree := ThoughtChain.runPushesJs_eq ThoughtChain.dCfg cs ThoughtChain.initState hmem rfl
  obtain ⟨h1, h2, h3, h4⟩ := asciiNoLoss cs
  exact ⟨hagree, h1, h2, h3, h4⟩

/-- Witness for the amended C1: the repository's cross-chunk test sequence is
`cleanStr` (it is ASCII), and the amended no-loss invariant holds on it. -/
theorem claim1_no_loss_clean_witness :
    (ThoughtChain.demoChunksA.all cleanStr = true) ∧
    (ThoughtChain.runPushesJs ThoughtChain.dCfg ThoughtChain.initState ThoughtChain.demoChunksA =
        ThoughtChain.runPushes ThoughtChain.dCfg ThoughtChain.initState
          ThoughtChain.demoChunksA ∧
      ThoughtChain.eventsText
          ((ThoughtChain.runPushesT ThoughtChain.dCfg ThoughtChain.initState
              ThoughtChain.demoChunksA).1.flatten ++
            (ThoughtChain.flushT
              (ThoughtChain.runPushesT ThoughtChain.dCfg ThoughtChain.initState
                ThoughtChain.demoChunksA).2).1) =
        ThoughtChain.demoChunksA.flatten ∧
      (ThoughtChain.runPushes ThoughtChain.dCfg ThoughtChain.initState
          ThoughtChain.demoChunksA).1 =
        ((ThoughtChain.runPushesT ThoughtChain.dCfg ThoughtChain.initState
            ThoughtChain.demoChunksA).1).map ThoughtChain.deltaOfEvents ∧
      (ThoughtChain.runPushes ThoughtChain.dCfg ThoughtChain.initState
          ThoughtChain.demoChunksA).2 =
        (ThoughtChain.runPushesT ThoughtChain.dCfg ThoughtChain.initState
          ThoughtChain.demoChunksA).2 ∧
      (ThoughtChain.flush
          (ThoughtChain.runPushes ThoughtChain.dCfg ThoughtChain.initState
            ThoughtChain.demoChunksA).2).1 =
        ThoughtChain.deltaOfEvents
          (ThoughtChain.flushT
            (ThoughtChain.runPushesT ThoughtChain.dCfg ThoughtChain.initState
              ThoughtChain.demoChunksA).2).1) :=
  ⟨by decide, claim1_no_loss_clean ThoughtChain.demoChunksA (by decide)⟩

/-- C2 counterexample: cutting `İ<think>x` into `İ` + `<think>x` changes the
output.  A single `push` of the whole string misaligns the lowered-string tag
index (U+0130 expands to two code units) against the un-lowered buffer and
yields content `İ<` and empty thinking, while pushing the two sub-chunks
yields content `İ` and thinking `x`; both runs end with an empty buffer, so
the terminal `flush` emits nothing and the concatenated channel outputs
differ, falsifying the unrestricted chunk-boundary-invariance claim. -/
theorem claim2_counterexample :
    ([strOf "İ", strOf "<think>x"] : List Str).flatten = strOf "İ<think>x" ∧
    ThoughtChain.runPushesJs ThoughtChain.dCfg ThoughtChain.initState [strOf "İ<think>x"] =
      ([⟨strOf "İ<", []⟩], ⟨[], true⟩) ∧
    ThoughtChain.runPushesJs ThoughtChain.dCfg ThoughtChain.initState
        [strOf "İ", strOf "<think>x"] =
      ([⟨strOf "İ", []⟩, ⟨[], strOf "x"⟩], ⟨[], true⟩) ∧
    ThoughtChain.flush ⟨[], true⟩ = (ThoughtChain.emptyDelta, ⟨[], true⟩) ∧
    strOf "İ<" ≠ strOf "İ" ∧
    ([] : Str) ≠ strOf "x" := by
  decide

/-- C2 (amended): restricted to chunks in which every character lowercases
character-wise (`cleanStr`: every character other than U+0130 and U+212A; in
particular, all ASCII input), the JS-lowercasing splitter coincides with the
character-wise model, and tag-splitting is chunk-boundary-invariant: for
every way of cutting such an input into sub-chunks (including cuts inside a
tag), feeding the sub-chunks to the default-tag splitter as successive `push`
calls followed by a terminal `flush` yields the same concatenated
`contentDelta` and the same concatenated `thinkingDelta` as a single `push`
of the whole string followed by `flush`, and the splitter ends in the same
state.  Unrestricted, the claim is false. -/
theorem claim2_chunk_invariance_clean (cs : List Str) (h : cs.all cleanStr = true) :
    ThoughtChain.runPushesJs ThoughtChain.dCfg ThoughtChain.initState cs =
      ThoughtChain.runPushes ThoughtChain.dCfg ThoughtChain.initState cs ∧
    ThoughtChain.pushStrJs ThoughtChain.dCfg ThoughtChain.initState cs.flatten =
      ThoughtChain.pushStr ThoughtChain.dCfg ThoughtChain.initState cs.flatten ∧
    ((ThoughtChain.runPushes ThoughtChain.dCfg ThoughtChain.initState cs).1.map
        ThoughtChain.Delta.contentDelta).flatten ++
      (ThoughtChain.flush
        (ThoughtChain.runPushes ThoughtChain.dCfg ThoughtChain.initState cs).2).1.contentDelta =
      (ThoughtChain.pushStr ThoughtChain.dCfg ThoughtChain.initState cs.flatten).1.contentDelta ++
        (ThoughtChain.flush
          (ThoughtChain.pushStr ThoughtChain.dCfg ThoughtChain.initState
            cs.flatten).2).1.contentDelta ∧
    ((ThoughtChain.runPushes ThoughtChain.dCfg ThoughtChain.initState cs).1.map
        ThoughtChain.Delta.thinkingDelta).flatten ++
      (ThoughtChain.flush
        (ThoughtChain.runPushes ThoughtChain.dCfg ThoughtChain.initState cs).2).1.thinkingDelta =
      (ThoughtChain.pushStr ThoughtChain.dCfg ThoughtChain.initState cs.flatten).1.thinkingDelta ++
        (ThoughtChain.flush
          (ThoughtChain.pushStr ThoughtChain.dCfg ThoughtChain.initState
            cs.flatten).2).1.thinkingDelta ∧
    (ThoughtChain.runPushes ThoughtChain.dCfg ThoughtChain.initState cs).2 =
      (ThoughtChain.pushStr ThoughtChain.dCfg ThoughtChain.initState cs.flatten).2 := by
  have hmem : ∀ c ∈ cs, cleanStr c = true := List.all_eq_true.1 h
  have hagree := ThoughtChain.runPushesJs_eq ThoughtChain.dCfg cs ThoughtChain.initState hmem rfl
  have hflat : cleanStr cs.flatten = true := cleanStr_flatten cs h
  have hagree2 := ThoughtChain.pushStrJs_eq ThoughtChain.dCfg ThoughtChain.initState
    cs.flatten rfl hflat
  obtain ⟨h1, h2, h3⟩ := asciiChunkInvariance cs
  exact ⟨hagree, hagree2, h1, h2, h3⟩

/-- Witness for the amended C2: the repository's partial-tag-tail test
sequence is `cleanStr` (it is ASCII), and the amended chunk-boundary
invariance holds on it. -/
theorem claim2_chunk_invariance_clean_witness :
    (ThoughtChain.demoChunksB.all cleanStr = true) ∧
    (ThoughtChain.runPushesJs ThoughtChain.dCfg ThoughtChain.initState ThoughtChain.demoChunksB =
        ThoughtChain.runPushes ThoughtChain.dCfg ThoughtChain.initState
          ThoughtChain.demoChunksB ∧
      ThoughtChain.pushStrJs ThoughtChain.dCfg ThoughtChain.initState
          ThoughtChain.demoChunksB.flatten =
        ThoughtChain.pushStr ThoughtChain.dCfg ThoughtChain.initState
          ThoughtChain.demoChunksB.flatten ∧
      ((ThoughtChain.runPushes ThoughtChain.dCfg ThoughtChain.initState
            ThoughtChain.demoChunksB).1.map ThoughtChain.Delta.contentDelta).flatten ++
        (ThoughtChain.flush
          (ThoughtChain.runPushes ThoughtChain.dCfg ThoughtChain.initState
            ThoughtChain.demoChunksB).2).1.contentDelta =
        (ThoughtChain.pushStr ThoughtChain.dCfg ThoughtChain.initState
            ThoughtChain.demoChunksB.flatten).1.contentDelta ++
          (ThoughtChain.flush
            (ThoughtChain.pushStr ThoughtChain.dCfg ThoughtChain.initState
              ThoughtChain.demoChunksB.flatten).2).1.contentDelta ∧
      ((ThoughtChain.runPushes ThoughtChain.dCfg ThoughtChain.initState
            ThoughtChain.demoChunksB).1.map ThoughtChain.Delta.thinkingDelta).flatten ++
        (ThoughtChain.flush
          (ThoughtChain.runPushes ThoughtChain.dCfg ThoughtChain.initState
            ThoughtChain.demoChunksB).2).1.thinkingDelta =
        (ThoughtChain.pushStr ThoughtChain.dCfg ThoughtChain.initState
            ThoughtChain.demoChunksB.flatten).1.thinkingDelta ++
          (ThoughtChain.flush
            (ThoughtChain.pushStr ThoughtChain.dCfg ThoughtChain.initState
              ThoughtChain.demoChunksB.flatten).2).1.thinkingDelta ∧
      (ThoughtChain.runPushes ThoughtChain.dCfg ThoughtChain.initState
          ThoughtChain.demoChunksB).2 =
        (ThoughtChain.pushStr ThoughtChain.dCfg ThoughtChain.initState
          ThoughtChain.demoChunksB.flatten).2) :=
  ⟨by decide, claim2_chunk_invariance_clean ThoughtChain.demoChunksB (by decide)⟩
